import Mathlib

/-!
Shallow embedding of the Minesweeper knowledge-based agent
(`minesweeper.py`): the `Sentence` constraint type, the `MinesweeperAI`
agent state with its fact-extraction (`additional_check`) and derivation
(`inference`) procedures, move selection, and the game-side neighbour-mine
count used to define valid observations.

Python sets of cells are modelled as duplicate-free `List Cell` values
(Python's set iteration order is unspecified; the model fixes construction
order).  The recursive `additional_check` and the mutate-while-iterating
loops of `inference` are modelled with an explicit fuel parameter: a
result of `none` means the computation did not finish within the given
fuel.  All definitions are structurally recursive, hence executable and
kernel-reducible.
-/

/-- A board cell `(row, col)`, as in the Python tuples. -/
abbrev Cell : Type := ℕ × ℕ

/-- A logical sentence: a set of board cells and a count of how many of
them are mines (`Sentence.__init__`).  `count` is an `Int`, as in Python. -/
structure Sentence where
  cells : List Cell
  count : ℤ
  deriving DecidableEq, Repr

namespace Sentence

/-- Python `Sentence.__eq__`: equal cell sets and equal counts.  Cell sets
are compared as sets (membership), since the model represents them as
lists. -/
def eqv (S T : Sentence) : Prop :=
  (∀ c ∈ S.cells, c ∈ T.cells) ∧ (∀ c ∈ T.cells, c ∈ S.cells) ∧ S.count = T.count

instance : DecidablePred fun p : Sentence × Sentence => eqv p.1 p.2 := by
  intro p; unfold eqv; infer_instance

instance (S T : Sentence) : Decidable (eqv S T) := by
  unfold eqv; infer_instance

/-- Python `Sentence.known_mines`: the full cell set when
`count == len(cells) and count > 0`, otherwise `None`. -/
def known_mines (S : Sentence) : Option (List Cell) :=
  if S.count = (S.cells.length : ℤ) ∧ S.count > 0 then some S.cells else none

/-- Python `Sentence.known_safes`: the full cell set when
`count == 0 and len(cells) > 0`, otherwise `None`. -/
def known_safes (S : Sentence) : Option (List Cell) :=
  if S.count = 0 ∧ S.cells.length > 0 then some S.cells else none

/-- Python `Sentence.mark_mine`: if the cell is present, remove it and
decrement the count; otherwise do nothing. -/
def mark_mine (c : Cell) (S : Sentence) : Sentence :=
  if c ∈ S.cells then ⟨S.cells.filter (fun x => x ≠ c), S.count - 1⟩ else S

/-- Python `Sentence.mark_safe`: discard the cell (a no-op when absent),
leaving the count unchanged. -/
def mark_safe (c : Cell) (S : Sentence) : Sentence :=
  ⟨S.cells.filter (fun x => x ≠ c), S.count⟩

end Sentence

/-- Membership of a sentence in a knowledge list up to Python `==`
(used for `s3 not in self.knowledge` and `list.remove`). -/
def containsSent (l : List Sentence) (S : Sentence) : Prop :=
  ∃ T ∈ l, Sentence.eqv T S

instance (l : List Sentence) (S : Sentence) : Decidable (containsSent l S) := by
  unfold containsSent; infer_instance

/-- Python `list.remove` wrapped in `try/except ValueError`: delete the
first element equal (by `Sentence.__eq__`) to `S`; leave the list
unchanged when no element matches. -/
def removeFirstSent : List Sentence → Sentence → List Sentence
  | [], _ => []
  | T :: rest, S => if Sentence.eqv T S then rest else T :: removeFirstSent rest S

/-- The state of the Python `MinesweeperAI` object. -/
structure MinesweeperAI where
  height : ℕ
  width : ℕ
  moves_made : List Cell
  mines : List Cell
  safes : List Cell
  knowledge : List Sentence
  deriving DecidableEq, Repr

/-- Python `set.add`: append the element when it is not already present. -/
def insertCell (c : Cell) (l : List Cell) : List Cell :=
  if c ∈ l then l else l ++ [c]

namespace MinesweeperAI

/-- Python `MinesweeperAI.__init__`: empty move/mine/safe sets and an
empty knowledge base. -/
def init (h w : ℕ) : MinesweeperAI :=
  ⟨h, w, [], [], [], []⟩

/-- Python `MinesweeperAI.mark_mine`: record the mine globally and mark
it in every sentence of the knowledge base. -/
def mark_mine (c : Cell) (s : MinesweeperAI) : MinesweeperAI :=
  { s with mines := insertCell c s.mines,
           knowledge := s.knowledge.map (Sentence.mark_mine c) }

/-- Python `MinesweeperAI.mark_safe`: record the safe cell globally and
mark it in every sentence of the knowledge base. -/
def mark_safe (c : Cell) (s : MinesweeperAI) : MinesweeperAI :=
  { s with safes := insertCell c s.safes,
           knowledge := s.knowledge.map (Sentence.mark_safe c) }

end MinesweeperAI

/-- Fallible left fold over a list, used to model Python `for` loops whose
bodies may run out of fuel. -/
def optFold {α : Type} (f : MinesweeperAI → α → Option MinesweeperAI) :
    MinesweeperAI → List α → Option MinesweeperAI
  | s, [] => some s
  | s, a :: l =>
    match f s a with
    | none => none
    | some s' => optFold f s' l

/-- Start of each `additional_check` loop iteration: when the (stale)
snapshot sentence has an empty cell set, delete its first `==`-match from
the live knowledge list (`ValueError` ignored). -/
def acRemove (t : MinesweeperAI) (T : Sentence) : MinesweeperAI :=
  if T.cells.isEmpty then { t with knowledge := removeFirstSent t.knowledge T }
  else t

/-- One iteration of the `for sentence in knowledge_copy` loop of Python
`MinesweeperAI.additional_check`, with `rec` standing for the recursive
call: after the removal check, mark every cell the stale sentence makes
conclusive, each marking followed by a recursive call. -/
def acStep (rec : MinesweeperAI → Option MinesweeperAI) (t : MinesweeperAI)
    (T : Sentence) : Option MinesweeperAI :=
  match T.known_mines with
  | some cs =>
    optFold (fun u c => rec (MinesweeperAI.mark_mine c u)) (acRemove t T) cs
  | none =>
    match T.known_safes with
    | some cs =>
      optFold (fun u c => rec (MinesweeperAI.mark_safe c u)) (acRemove t T) cs
    | none => some (acRemove t T)

/-- One invocation body of Python `MinesweeperAI.additional_check`: the
loop runs over a snapshot (`deepcopy`) of the knowledge list taken at
entry. -/
def acBody (rec : MinesweeperAI → Option MinesweeperAI) (s : MinesweeperAI) :
    Option MinesweeperAI :=
  optFold (acStep rec) s s.knowledge

/-- Python `MinesweeperAI.additional_check` with fuel bounding the
recursion depth (`none` = fuel exhausted). -/
def additional_check : ℕ → MinesweeperAI → Option MinesweeperAI
  | 0, _ => none
  | n + 1, s => acBody (additional_check n) s

/-- The sentence `s3 = Sentence(s2.cells - s1.cells, s2.count - s1.count)`
derived by subset subtraction in `MinesweeperAI.inference`. -/
def deriveSent (ki kj : Sentence) : Sentence :=
  ⟨kj.cells.filter (fun c => c ∉ ki.cells), kj.count - ki.count⟩

/-- The body of one inner-loop iteration of `MinesweeperAI.inference`, for
current sentences `s1 = ki` and `s2 = kj`: when `s1.cells` is a subset of
`s2.cells` and the derived `s3` is non-empty and not yet in the knowledge
base, either mark all its cells (mines or safes, setting `checkNeed`) or
append it.  Returns the new state and the `checkNeed` flag. -/
def infBody (s : MinesweeperAI) (cn : Bool) (ki kj : Sentence) :
    MinesweeperAI × Bool :=
  if (∀ c ∈ ki.cells, c ∈ kj.cells) then
    if 0 < (deriveSent ki kj).cells.length ∧
        ¬ containsSent s.knowledge (deriveSent ki kj) then
      match (deriveSent ki kj).known_mines with
      | some cs => ((cs.foldl (fun u c => MinesweeperAI.mark_mine c u) s), true)
      | none =>
        match (deriveSent ki kj).known_safes with
        | some cs => ((cs.foldl (fun u c => MinesweeperAI.mark_safe c u) s), true)
        | none => ({ s with knowledge := s.knowledge ++ [deriveSent ki kj] }, cn)
    else (s, cn)
  else (s, cn)

/-- The inner `for s2 in self.knowledge` loop of
`MinesweeperAI.inference`, iterating index `j` over the live (growing)
knowledge list while the outer loop sits at index `i`.  Each step reads
the current sentence values at `i` and `j` afresh, since the Python
objects mutate in place. -/
def infInner : ℕ → ℕ → ℕ → MinesweeperAI → Bool → Option (MinesweeperAI × Bool)
  | 0, _, _, _, _ => none
  | fj + 1, i, j, s, cn =>
    match s.knowledge.get? j with
    | none => some (s, cn)
    | some kj =>
      match s.knowledge.get? i with
      | none => infInner fj i (j + 1) s cn
      | some ki =>
        match infBody s cn ki kj with
        | (s', cn') => infInner fj i (j + 1) s' cn'

/-- The outer `for s1 in self.knowledge` loop of
`MinesweeperAI.inference`: index `i` over the live list; each step runs a
fresh inner loop from `j = 0`. -/
def infOuter : ℕ → ℕ → MinesweeperAI → Bool → Option (MinesweeperAI × Bool)
  | 0, _, _, _ => none
  | fi + 1, i, s, cn =>
    match s.knowledge.get? i with
    | none => some (s, cn)
    | some _ =>
      match infInner (fi + 1) i 0 s cn with
      | none => none
      | some (s', cn') => infOuter fi (i + 1) s' cn'

/-- Python `MinesweeperAI.inference`: the double scan over ordered pairs
of sentences, followed by `additional_check` when any marking happened. -/
def inference (f : ℕ) (s : MinesweeperAI) : Option MinesweeperAI :=
  match infOuter f 0 s false with
  | none => none
  | some (s', cn) => if cn then additional_check f s' else some s'

/-- The clipped box of grid cells Python iterates with
`range(from_height, to_height) x range(from_width, to_width)`. -/
def boxList (fromH toH fromW toW : ℕ) : List Cell :=
  (List.range' fromH (toH - fromH)).flatMap
    (fun i => (List.range' fromW (toW - fromW)).map (fun j => (i, j)))

/-- The clipped 3x3 box around `cell` that the nested helper
`sentenceOfSurroundings` of `MinesweeperAI.add_knowledge` iterates:
`range(from_height, to_height) x range(from_width, to_width)` with the
bounds clamped to the grid. -/
def surroundBox (s : MinesweeperAI) (cell : Cell) : List Cell :=
  boxList (cell.1 - 1) (min (cell.1 + 2) s.height)
          (cell.2 - 1) (min (cell.2 + 2) s.width)

/-- The nested helper `sentenceOfSurroundings` of
`MinesweeperAI.add_knowledge`: iterate the 3x3 box around `cell` clipped
to the grid; a box cell in `mines` decrements the adjusted count, a box
cell in neither `mines` nor `safes` joins the cell set; return a sentence
exactly when the collected cell set is non-empty. -/
def sentenceOfSurroundings (s : MinesweeperAI) (cell : Cell) (count : ℕ) :
    Option Sentence :=
  if 0 < ((surroundBox s cell).filter
      (fun p => p ∉ s.mines ∧ p ∉ s.safes)).length then
    some ⟨(surroundBox s cell).filter (fun p => p ∉ s.mines ∧ p ∉ s.safes),
          (count : ℤ) -
            (((surroundBox s cell).filter (fun p => p ∈ s.mines)).length : ℤ)⟩
  else none

/-- Steps 1-2 of Python `MinesweeperAI.add_knowledge`: record the move
and mark the probed cell safe. -/
def observeMark (s : MinesweeperAI) (cell : Cell) : MinesweeperAI :=
  MinesweeperAI.mark_safe cell { s with moves_made := insertCell cell s.moves_made }

/-- Steps 1-3 of Python `MinesweeperAI.add_knowledge`: record the move,
mark the cell safe, and append the sentence built from the surroundings
(when non-trivial). -/
def observeBase (s : MinesweeperAI) (cell : Cell) (count : ℕ) : MinesweeperAI :=
  match sentenceOfSurroundings (observeMark s cell) cell count with
  | some sent =>
    { observeMark s cell with
      knowledge := (observeMark s cell).knowledge ++ [sent] }
  | none => observeMark s cell

/-- Python `MinesweeperAI.add_knowledge`: steps 1-3 (`observeBase`), then
step 4 (`additional_check`) and step 5 (`inference`). -/
def add_knowledge (f : ℕ) (s : MinesweeperAI) (cell : Cell) (count : ℕ) :
    Option MinesweeperAI :=
  match additional_check f (observeBase s cell count) with
  | none => none
  | some s4 => inference f s4

/-- Python `MinesweeperAI.make_safe_move`: return a cell of
`safes - moves_made` when one exists, else `None`.  A pure read. -/
def make_safe_move (s : MinesweeperAI) : Option Cell :=
  (s.safes.filter (fun c => c ∉ s.moves_made)).head?

/-- Python `MinesweeperAI.make_random_move`: when not every grid cell is
already probed or a known mine, draw random cells until one outside
`moves_made | mines` appears.  The random draws are modelled by the
explicit list `draws` (each entry one `randrange` pair); the function is
a pure read of the agent state. -/
def make_random_move (s : MinesweeperAI) (draws : List Cell) : Option Cell :=
  if s.moves_made.length + s.mines.length < s.height * s.width then
    draws.find? (fun c => decide (c ∉ s.moves_made ∧ c ∉ s.mines))
  else none

/-- Python `Minesweeper.nearby_mines` for ground-truth mine set `M`:
the number of mines within one row and column of `cell`, the cell itself
excluded, clipped to the grid. -/
def nearby_mines (h w : ℕ) (M : List Cell) (cell : Cell) : ℕ :=
  ((boxList (cell.1 - 1) (min (cell.1 + 2) h)
            (cell.2 - 1) (min (cell.2 + 2) w)).filter
    (fun p => p ≠ cell ∧ p ∈ M)).length

/-- One observation step fed to the agent: the probed cell, the reported
neighbour-mine count, and the fuel given to that `add_knowledge` call. -/
structure Step where
  cell : Cell
  cnt : ℕ
  fuel : ℕ
  deriving DecidableEq, Repr

/-- Run a sequence of `add_knowledge` calls. -/
def runSteps : MinesweeperAI → List Step → Option MinesweeperAI
  | s, [] => some s
  | s, st :: rest =>
    match add_knowledge st.fuel s st.cell st.cnt with
    | none => none
    | some s' => runSteps s' rest

/-- A step list is valid for ground truth `M` on an `h x w` grid when
every probed cell is an in-bounds non-mine cell and the reported count is
the true neighbour-mine count. -/
def ValidSteps (h w : ℕ) (M : List Cell) (steps : List Step) : Prop :=
  ∀ st ∈ steps, st.cell.1 < h ∧ st.cell.2 < w ∧ st.cell ∉ M ∧
    st.cnt = nearby_mines h w M st.cell

instance (h w : ℕ) (M : List Cell) (steps : List Step) :
    Decidable (ValidSteps h w M steps) := by
  unfold ValidSteps; infer_instance

/-- An agent state is reachable (for ground truth `M`) when some valid
observation sequence, run from the initial agent, produces it. -/
def Reachable (h w : ℕ) (M : List Cell) (s : MinesweeperAI) : Prop :=
  ∃ steps : List Step, ValidSteps h w M steps ∧
    runSteps (MinesweeperAI.init h w) steps = some s

/-- Total number of (cell, sentence) memberships in the knowledge base:
the termination measure of `additional_check`. -/
def muKB (s : MinesweeperAI) : ℕ :=
  (s.knowledge.map (fun S => S.cells.length)).sum

/-! ## The set model: basic definitions for the specification -/

/-- A cell lies on the `h x w` grid. -/
def InGrid (h w : ℕ) (c : Cell) : Prop := c.1 < h ∧ c.2 < w

instance (h w : ℕ) (c : Cell) : Decidable (InGrid h w c) := by
  unfold InGrid; infer_instance

/-- A sentence is sound for ground truth `M` when its count is exactly
the number of its cells that are mines of `M`. -/
def SoundS (M : List Cell) (S : Sentence) : Prop :=
  S.count = (((S.cells.filter (fun c => c ∈ M)).length : ℕ) : ℤ)

/-- The second state extends the first: same grid, and none of the three
tracked cell sets has lost an element. -/
def Extends (s s' : MinesweeperAI) : Prop :=
  s'.height = s.height ∧ s'.width = s.width ∧
  (∀ c ∈ s.moves_made, c ∈ s'.moves_made) ∧
  (∀ c ∈ s.mines, c ∈ s'.mines) ∧
  (∀ c ∈ s.safes, c ∈ s'.safes)

theorem extends_refl (s : MinesweeperAI) : Extends s s :=
  ⟨rfl, rfl, fun _ h => h, fun _ h => h, fun _ h => h⟩

theorem extends_trans {s t u : MinesweeperAI} (h1 : Extends s t)
    (h2 : Extends t u) : Extends s u := by
  obtain ⟨a1, b1, c1, d1, e1⟩ := h1
  obtain ⟨a2, b2, c2, d2, e2⟩ := h2
  exact ⟨a2.trans a1, b2.trans b1, fun c h => c2 c (c1 c h),
    fun c h => d2 c (d1 c h), fun c h => e2 c (e1 c h)⟩

/-- The reachability invariant of the agent, relative to ground truth `M`
on an `h x w` grid: recorded mines are true mines, recorded safes are
true non-mines, probed cells are recorded safe, the tracked lists are
duplicate-free and on the grid, and every sentence of the knowledge base
is sound, duplicate-free, on the grid, and references no resolved cell. -/
structure AgentInv (M : List Cell) (h w : ℕ) (s : MinesweeperAI) : Prop where
  height_eq : s.height = h
  width_eq : s.width = w
  nodupMines : s.mines.Nodup
  nodupSafes : s.safes.Nodup
  nodupMoves : s.moves_made.Nodup
  minesGood : ∀ c ∈ s.mines, c ∈ M ∧ InGrid h w c
  safesGood : ∀ c ∈ s.safes, c ∉ M
  movesGood : ∀ c ∈ s.moves_made, c ∈ s.safes ∧ InGrid h w c
  kbGood : ∀ S ∈ s.knowledge, SoundS M S ∧ S.cells.Nodup ∧
    ∀ c ∈ S.cells, c ∉ s.mines ∧ c ∉ s.safes ∧ InGrid h w c

/-! ## List lemmas -/

theorem mem_insertCell {c a : Cell} {l : List Cell} :
    a ∈ insertCell c l ↔ a = c ∨ a ∈ l := by
  unfold insertCell
  by_cases h : c ∈ l
  · rw [if_pos h]
    constructor
    · exact fun h' => Or.inr h'
    · rintro (rfl | h')
      · exact h
      · exact h'
  · rw [if_neg h, List.mem_append, List.mem_singleton]
    tauto

theorem self_mem_insertCell (c : Cell) (l : List Cell) : c ∈ insertCell c l :=
  mem_insertCell.mpr (Or.inl rfl)

theorem subset_insertCell (c : Cell) (l : List Cell) :
    ∀ a ∈ l, a ∈ insertCell c l :=
  fun _ h => mem_insertCell.mpr (Or.inr h)

theorem nodup_insertCell {c : Cell} {l : List Cell} (h : l.Nodup) :
    (insertCell c l).Nodup := by
  unfold insertCell
  by_cases hc : c ∈ l
  · rw [if_pos hc]; exact h
  · rw [if_neg hc]
    refine List.Nodup.append h (List.nodup_singleton c) ?_
    intro a ha hb
    rw [List.mem_singleton] at hb
    subst hb
    exact hc ha

theorem filter_ne_eq_self {α : Type} [DecidableEq α] {l : List α} {a : α}
    (h : a ∉ l) : l.filter (fun x => x ≠ a) = l := by
  apply List.filter_eq_self.mpr
  intro x hx
  simp only [ne_eq, decide_eq_true_eq]
  rintro rfl; exact h hx

theorem length_filter_ne_add_one {α : Type} [DecidableEq α] {l : List α} {a : α}
    (hn : l.Nodup) (ha : a ∈ l) :
    (l.filter (fun x => x ≠ a)).length + 1 = l.length := by
  induction l with
  | nil => cases ha
  | cons b t ih =>
    rw [List.nodup_cons] at hn
    rcases List.mem_cons.mp ha with heq | hat
    · subst heq
      have h1 : (a :: t).filter (fun x => x ≠ a) = t.filter (fun x => x ≠ a) := by
        simp [List.filter_cons]
      rw [h1, filter_ne_eq_self hn.1, List.length_cons]
    · have hba : b ≠ a := fun h => hn.1 (h ▸ hat)
      have h1 : (b :: t).filter (fun x => x ≠ a) = b :: t.filter (fun x => x ≠ a) := by
        simp [List.filter_cons, hba]
      rw [h1, List.length_cons, List.length_cons, Nat.add_right_comm, ih hn.2 hat]

theorem length_filter_ne_lt {α : Type} [DecidableEq α] {l : List α} {a : α}
    (ha : a ∈ l) : (l.filter (fun x => x ≠ a)).length < l.length := by
  induction l with
  | nil => cases ha
  | cons b t ih =>
    by_cases hba : b = a
    · subst hba
      have h1 : (b :: t).filter (fun x => x ≠ b) = t.filter (fun x => x ≠ b) := by
        simp [List.filter_cons]
      rw [h1, List.length_cons]
      exact Nat.lt_succ_of_le (List.length_filter_le _ _)
    · have hat : a ∈ t := by
        rcases List.mem_cons.mp ha with heq | h
        · exact absurd heq.symm hba
        · exact h
      have h1 : (b :: t).filter (fun x => x ≠ a) = b :: t.filter (fun x => x ≠ a) := by
        simp [List.filter_cons, hba]
      rw [h1, List.length_cons, List.length_cons]
      exact Nat.succ_lt_succ (ih hat)

theorem length_filter_split {α : Type} (l : List α) (p q : α → Prop)
    [DecidablePred p] [DecidablePred q] :
    (l.filter (fun x => p x)).length =
      (l.filter (fun x => p x ∧ q x)).length +
      (l.filter (fun x => p x ∧ ¬ q x)).length := by
  induction l with
  | nil => simp
  | cons a t ih =>
    by_cases hp : p a
    · by_cases hq : q a
      · simp only [List.filter_cons, decide_eq_true_eq]
        simp only [hp, hq, and_self, ite_true, and_false, not_true_eq_false, ite_false,
          List.length_cons]
        omega
      · simp only [List.filter_cons, decide_eq_true_eq]
        simp only [hp, hq, and_true, and_false, not_false_eq_true, ite_true, ite_false,
          List.length_cons]
        omega
    · simp only [List.filter_cons, decide_eq_true_eq]
      simp only [hp, false_and, ite_false]
      exact ih

theorem all_of_length_filter_eq {α : Type} {l : List α} {p : α → Prop}
    [DecidablePred p] (h : (l.filter (fun x => p x)).length = l.length) :
    ∀ a ∈ l, p a := by
  induction l with
  | nil => simp
  | cons b t ih =>
    by_cases hb : p b
    · simp only [List.filter_cons, decide_eq_true_eq, hb, ite_true, List.length_cons] at h
      intro a ha
      rcases List.mem_cons.mp ha with heq | hat
      · exact heq ▸ hb
      · exact ih (Nat.succ_injective h) a hat
    · exfalso
      simp only [List.filter_cons, decide_eq_true_eq, hb, ite_false, List.length_cons] at h
      have := List.length_filter_le (fun x => decide (p x)) t
      omega

theorem length_eq_of_nodup_mem_iff {α : Type} [DecidableEq α] {l₁ l₂ : List α}
    (h₁ : l₁.Nodup) (h₂ : l₂.Nodup) (h : ∀ x, x ∈ l₁ ↔ x ∈ l₂) :
    l₁.length = l₂.length := by
  rw [← List.toFinset_card_of_nodup h₁, ← List.toFinset_card_of_nodup h₂]
  congr 1
  ext x
  simpa using h x

theorem mem_removeFirstSent {l : List Sentence} {S T : Sentence}
    (h : T ∈ removeFirstSent l S) : T ∈ l := by
  induction l with
  | nil => simp [removeFirstSent] at h
  | cons A rest ih =>
    unfold removeFirstSent at h
    by_cases hA : Sentence.eqv A S
    · rw [if_pos hA] at h
      exact List.mem_cons_of_mem _ h
    · rw [if_neg hA] at h
      rcases List.mem_cons.mp h with heq | hT
      · exact heq ▸ List.mem_cons_self _ _
      · exact List.mem_cons_of_mem _ (ih hT)

theorem mem_removeFirstSent_of_ne {l : List Sentence} {S T : Sentence}
    (hT : T ∈ l) (hne : ¬ Sentence.eqv T S) : T ∈ removeFirstSent l S := by
  induction l with
  | nil => cases hT
  | cons A rest ih =>
    unfold removeFirstSent
    by_cases hA : Sentence.eqv A S
    · rw [if_pos hA]
      rcases List.mem_cons.mp hT with heq | h
      · exact absurd (heq ▸ hA) hne
      · exact h
    · rw [if_neg hA]
      rcases List.mem_cons.mp hT with heq | h
      · exact heq ▸ List.mem_cons_self _ _
      · exact List.mem_cons_of_mem _ (ih h)

/-! ## Sentence-level marking lemmas -/

theorem mark_mine_cells_sub {c : Cell} {S : Sentence} :
    ∀ x ∈ (Sentence.mark_mine c S).cells, x ∈ S.cells ∧ x ≠ c := by
  intro x hx
  unfold Sentence.mark_mine at hx
  by_cases hc : c ∈ S.cells
  · rw [if_pos hc] at hx
    simpa using List.mem_filter.mp hx
  · rw [if_neg hc] at hx
    exact ⟨hx, fun h => hc (h ▸ hx)⟩

theorem mark_safe_cells_mem {c : Cell} {S : Sentence} {x : Cell} :
    x ∈ (Sentence.mark_safe c S).cells ↔ x ∈ S.cells ∧ x ≠ c := by
  unfold Sentence.mark_safe
  simp [List.mem_filter]

theorem mark_mine_cells_nodup {c : Cell} {S : Sentence} (h : S.cells.Nodup) :
    (Sentence.mark_mine c S).cells.Nodup := by
  unfold Sentence.mark_mine
  by_cases hc : c ∈ S.cells
  · rw [if_pos hc]; exact h.filter _
  · rw [if_neg hc]; exact h

theorem mark_safe_cells_nodup {c : Cell} {S : Sentence} (h : S.cells.Nodup) :
    (Sentence.mark_safe c S).cells.Nodup :=
  h.filter _

theorem filter_mem_filter_ne_eq (l : List Cell) (M : List Cell) (c : Cell)
    (hcM : c ∉ M) :
    (l.filter (fun x => x ≠ c)).filter (fun x => x ∈ M) =
      l.filter (fun x => x ∈ M) := by
  induction l with
  | nil => simp
  | cons b t ih =>
    by_cases hb : b ∈ M
    · have hbc : b ≠ c := fun h => hcM (h ▸ hb)
      simp only [List.filter_cons, decide_eq_true_eq]
      rw [if_pos hbc]
      simp only [List.filter_cons, decide_eq_true_eq]
      rw [if_pos hb, if_pos hb, ih]
    · simp only [List.filter_cons, decide_eq_true_eq]
      by_cases hbc : b ≠ c
      · rw [if_pos hbc]
        simp only [List.filter_cons, decide_eq_true_eq]
        rw [if_neg hb, if_neg hb, ih]
      · rw [if_neg hbc, ih, if_neg hb]

theorem length_filter_mem_mark {l : List Cell} {M : List Cell} {c : Cell}
    (hnd : l.Nodup) (hc : c ∈ l) (hcM : c ∈ M) :
    ((l.filter (fun x => x ≠ c)).filter (fun x => x ∈ M)).length + 1 =
      (l.filter (fun x => x ∈ M)).length := by
  have hlen : ((l.filter (fun x => x ≠ c)).filter (fun x => x ∈ M)).length =
      ((l.filter (fun x => x ∈ M)).filter (fun x => x ≠ c)).length := by
    apply length_eq_of_nodup_mem_iff ((hnd.filter _).filter _) ((hnd.filter _).filter _)
    intro x
    simp only [List.mem_filter, decide_eq_true_eq]
    tauto
  rw [hlen]
  apply length_filter_ne_add_one (hnd.filter _)
  rw [List.mem_filter]
  simpa using ⟨hc, hcM⟩

theorem sound_mark_mine_sent {M : List Cell} {S : Sentence} {c : Cell}
    (hS : SoundS M S) (hnd : S.cells.Nodup) (hcM : c ∈ M) :
    SoundS M (Sentence.mark_mine c S) := by
  unfold Sentence.mark_mine
  by_cases hc : c ∈ S.cells
  · rw [if_pos hc]
    have hlen := length_filter_mem_mark hnd hc hcM
    unfold SoundS at hS ⊢
    simp only [Sentence.mk.injEq] at *
    omega
  · rw [if_neg hc]; exact hS

theorem sound_mark_safe_sent {M : List Cell} {S : Sentence} {c : Cell}
    (hS : SoundS M S) (hcM : c ∉ M) :
    SoundS M (Sentence.mark_safe c S) := by
  unfold Sentence.mark_safe SoundS at *
  simp only at hS ⊢
  rw [filter_mem_filter_ne_eq _ _ _ hcM]
  exact hS

/-! ## Agent-level marking lemmas -/

theorem extends_mark_mine (c : Cell) (s : MinesweeperAI) :
    Extends s (MinesweeperAI.mark_mine c s) :=
  ⟨rfl, rfl, fun _ h => h, fun a h => subset_insertCell c _ a h, fun _ h => h⟩

theorem extends_mark_safe (c : Cell) (s : MinesweeperAI) :
    Extends s (MinesweeperAI.mark_safe c s) :=
  ⟨rfl, rfl, fun _ h => h, fun _ h => h, fun a h => subset_insertCell c _ a h⟩

theorem agentInv_mark_mine {M : List Cell} {h w : ℕ} {s : MinesweeperAI} {c : Cell}
    (hc : c ∈ M) (hg : InGrid h w c) (hs : AgentInv M h w s) :
    AgentInv M h w (MinesweeperAI.mark_mine c s) := by
  refine ⟨hs.height_eq, hs.width_eq, nodup_insertCell hs.nodupMines, hs.nodupSafes,
    hs.nodupMoves, ?_, hs.safesGood, hs.movesGood, ?_⟩
  · intro a ha
    rcases mem_insertCell.mp ha with rfl | ha'
    · exact ⟨hc, hg⟩
    · exact hs.minesGood a ha'
  · intro S' hS'
    rcases List.mem_map.mp hS' with ⟨S, hS, rfl⟩
    obtain ⟨hsound, hnd, hprune⟩ := hs.kbGood S hS
    refine ⟨sound_mark_mine_sent hsound hnd hc, mark_mine_cells_nodup hnd, ?_⟩
    intro x hx
    obtain ⟨hxS, hxc⟩ := mark_mine_cells_sub x hx
    obtain ⟨hm, hsf, hgr⟩ := hprune x hxS
    refine ⟨?_, hsf, hgr⟩
    intro hmem
    rcases mem_insertCell.mp hmem with rfl | h'
    · exact hxc rfl
    · exact hm h'

theorem agentInv_mark_safe {M : List Cell} {h w : ℕ} {s : MinesweeperAI} {c : Cell}
    (hc : c ∉ M) (hs : AgentInv M h w s) :
    AgentInv M h w (MinesweeperAI.mark_safe c s) := by
  refine ⟨hs.height_eq, hs.width_eq, hs.nodupMines, nodup_insertCell hs.nodupSafes,
    hs.nodupMoves, hs.minesGood, ?_, ?_, ?_⟩
  · intro a ha
    rcases mem_insertCell.mp ha with rfl | ha'
    · exact hc
    · exact hs.safesGood a ha'
  · intro a ha
    obtain ⟨h1, h2⟩ := hs.movesGood a ha
    exact ⟨subset_insertCell c _ a h1, h2⟩
  · intro S' hS'
    rcases List.mem_map.mp hS' with ⟨S, hS, rfl⟩
    obtain ⟨hsound, hnd, hprune⟩ := hs.kbGood S hS
    refine ⟨sound_mark_safe_sent hsound hc, mark_safe_cells_nodup hnd, ?_⟩
    intro x hx
    obtain ⟨hxS, hxc⟩ := mark_safe_cells_mem.mp hx
    obtain ⟨hm, hsf, hgr⟩ := hprune x hxS
    refine ⟨hm, ?_, hgr⟩
    intro hmem
    rcases mem_insertCell.mp hmem with rfl | h'
    · exact hxc rfl
    · exact hsf h'

/-! ## Generic fold invariants -/

theorem optFold_inv {α : Type} {f : MinesweeperAI → α → Option MinesweeperAI}
    {P : MinesweeperAI → Prop} {Q : α → Prop}
    (hstep : ∀ t a t', P t → Q a → f t a = some t' → P t' ∧ Extends t t') :
    ∀ l t t', P t → (∀ a ∈ l, Q a) → optFold f t l = some t' →
      P t' ∧ Extends t t' := by
  intro l
  induction l with
  | nil =>
    intro t t' hP _ hrun
    cases hrun
    exact ⟨hP, extends_refl t⟩
  | cons a rest ih =>
    intro t t' hP hQ hrun
    unfold optFold at hrun
    cases heq : f t a with
    | none => rw [heq] at hrun; cases hrun
    | some u =>
      rw [heq] at hrun
      obtain ⟨hPu, hEu⟩ := hstep t a u hP (hQ a (List.mem_cons_self a rest)) heq
      obtain ⟨hP', hE'⟩ := ih u t' hPu (fun x hx => hQ x (List.mem_cons_of_mem a hx)) hrun
      exact ⟨hP', extends_trans hEu hE'⟩

theorem foldl_inv {α : Type} {f : MinesweeperAI → α → MinesweeperAI}
    {P : MinesweeperAI → Prop} {Q : α → Prop}
    (hstep : ∀ t a, P t → Q a → P (f t a) ∧ Extends t (f t a)) :
    ∀ (l : List α) t, P t → (∀ a ∈ l, Q a) →
      P (List.foldl f t l) ∧ Extends t (List.foldl f t l) := by
  intro l
  induction l with
  | nil =>
    intro t hP _
    exact ⟨hP, extends_refl t⟩
  | cons a rest ih =>
    intro t hP hQ
    rw [List.foldl_cons]
    obtain ⟨hPu, hEu⟩ := hstep t a hP (hQ a (List.mem_cons_self a rest))
    obtain ⟨hP', hE'⟩ := ih (f t a) hPu (fun x hx => hQ x (List.mem_cons_of_mem a hx))
    exact ⟨hP', extends_trans hEu hE'⟩

/-! ## Conclusive sentences -/

theorem known_mines_some {S : Sentence} {cs : List Cell}
    (h : S.known_mines = some cs) :
    cs = S.cells ∧ S.count = (S.cells.length : ℤ) ∧ 0 < S.count := by
  unfold Sentence.known_mines at h
  by_cases hc : S.count = (S.cells.length : ℤ) ∧ S.count > 0
  · rw [if_pos hc] at h
    cases h
    exact ⟨rfl, hc.1, hc.2⟩
  · rw [if_neg hc] at h
    cases h

theorem known_safes_some {S : Sentence} {cs : List Cell}
    (h : S.known_safes = some cs) :
    cs = S.cells ∧ S.count = 0 ∧ 0 < S.cells.length := by
  unfold Sentence.known_safes at h
  by_cases hc : S.count = 0 ∧ S.cells.length > 0
  · rw [if_pos hc] at h
    cases h
    exact ⟨rfl, hc.1, hc.2⟩
  · rw [if_neg hc] at h
    cases h

theorem conclusive_mines_mem {M : List Cell} {S : Sentence} (hS : SoundS M S)
    (hcount : S.count = (S.cells.length : ℤ)) : ∀ c ∈ S.cells, c ∈ M := by
  unfold SoundS at hS
  apply all_of_length_filter_eq
  omega

theorem conclusive_safes_not_mem {M : List Cell} {S : Sentence} (hS : SoundS M S)
    (hcount : S.count = 0) : ∀ c ∈ S.cells, c ∉ M := by
  unfold SoundS at hS
  rw [hcount] at hS
  have hnil : S.cells.filter (fun c => c ∈ M) = [] :=
    List.length_eq_zero.mp (by omega)
  intro c hc hcM
  have : c ∈ S.cells.filter (fun c => c ∈ M) := by
    rw [List.mem_filter]
    simpa using ⟨hc, hcM⟩
  rw [hnil] at this
  cases this

/-! ## `additional_check` preserves the invariant -/

theorem agentInv_acRemove {M : List Cell} {h w : ℕ} {s : MinesweeperAI}
    {T : Sentence} (hs : AgentInv M h w s) : AgentInv M h w (acRemove s T) := by
  unfold acRemove
  by_cases he : T.cells.isEmpty
  · rw [if_pos he]
    refine ⟨hs.height_eq, hs.width_eq, hs.nodupMines, hs.nodupSafes, hs.nodupMoves,
      hs.minesGood, hs.safesGood, hs.movesGood, ?_⟩
    intro S hS
    exact hs.kbGood S (mem_removeFirstSent hS)
  · rw [if_neg he]; exact hs

theorem extends_acRemove (s : MinesweeperAI) (T : Sentence) :
    Extends s (acRemove s T) := by
  unfold acRemove
  by_cases he : T.cells.isEmpty
  · rw [if_pos he]
    exact ⟨rfl, rfl, fun _ h => h, fun _ h => h, fun _ h => h⟩
  · rw [if_neg he]; exact extends_refl s

theorem acStep_inv {M : List Cell} {h w : ℕ} {n : ℕ}
    (Hrec : ∀ t t', additional_check n t = some t' → AgentInv M h w t →
      AgentInv M h w t' ∧ Extends t t') :
    ∀ t T t', AgentInv M h w t → SoundS M T → (∀ c ∈ T.cells, InGrid h w c) →
      acStep (additional_check n) t T = some t' →
      AgentInv M h w t' ∧ Extends t t' := by
  intro t T t' ht hTs hTg hrun
  unfold acStep at hrun
  have hrem : AgentInv M h w (acRemove t T) := agentInv_acRemove ht
  have herem : Extends t (acRemove t T) := extends_acRemove t T
  cases hkm : T.known_mines with
  | some cs =>
    rw [hkm] at hrun
    obtain ⟨hcs, hcount, _⟩ := known_mines_some hkm
    subst hcs
    have hall : ∀ c ∈ T.cells, c ∈ M ∧ InGrid h w c := fun c hc =>
      ⟨conclusive_mines_mem hTs hcount c hc, hTg c hc⟩
    have := optFold_inv (P := AgentInv M h w) (Q := fun c => c ∈ M ∧ InGrid h w c)
      (f := fun u c => additional_check n (MinesweeperAI.mark_mine c u))
      (fun u c u' hu hq hrun' => by
        obtain ⟨hu2, he2⟩ := Hrec _ _ hrun' (agentInv_mark_mine hq.1 hq.2 hu)
        exact ⟨hu2, extends_trans (extends_mark_mine c u) he2⟩)
      T.cells (acRemove t T) t' hrem hall hrun
    exact ⟨this.1, extends_trans herem this.2⟩
  | none =>
    rw [hkm] at hrun
    cases hks : T.known_safes with
    | some cs =>
      rw [hks] at hrun
      obtain ⟨hcs, hcount, _⟩ := known_safes_some hks
      subst hcs
      have hall : ∀ c ∈ T.cells, c ∉ M := conclusive_safes_not_mem hTs hcount
      have := optFold_inv (P := AgentInv M h w) (Q := fun c => c ∉ M)
        (f := fun u c => additional_check n (MinesweeperAI.mark_safe c u))
        (fun u c u' hu hq hrun' => by
          obtain ⟨hu2, he2⟩ := Hrec _ _ hrun' (agentInv_mark_safe hq hu)
          exact ⟨hu2, extends_trans (extends_mark_safe c u) he2⟩)
        T.cells (acRemove t T) t' hrem hall hrun
      exact ⟨this.1, extends_trans herem this.2⟩
    | none =>
      rw [hks] at hrun
      cases hrun
      exact ⟨hrem, herem⟩

theorem additional_check_inv {M : List Cell} {h w : ℕ} :
    ∀ n (s s' : MinesweeperAI), additional_check n s = some s' →
      AgentInv M h w s → AgentInv M h w s' ∧ Extends s s' := by
  intro n
  induction n with
  | zero => intro s s' hrun; cases hrun
  | succ n ih =>
    intro s s' hrun hs
    unfold additional_check acBody at hrun
    exact optFold_inv
      (Q := fun T => SoundS M T ∧ ∀ c ∈ T.cells, InGrid h w c)
      (fun t T t' ht hq hstep =>
        acStep_inv (fun a b hab ha => ih a b hab ha) t T t' ht hq.1 hq.2 hstep)
      s.knowledge s s' hs
      (fun T hT => ⟨(hs.kbGood T hT).1, fun c hc => ((hs.kbGood T hT).2.2 c hc).2.2⟩)
      hrun

/-! ## Subset subtraction is sound -/

theorem length_filter_mem_split {l : List Cell} {M sub : List Cell}
    (hnd : l.Nodup) (hsubnd : sub.Nodup) (hsub : ∀ c ∈ sub, c ∈ l) :
    (l.filter (fun x => x ∈ M)).length =
      (sub.filter (fun x => x ∈ M)).length +
      ((l.filter (fun x => x ∉ sub)).filter (fun x => x ∈ M)).length := by
  have hsplit := length_filter_split l (fun x => x ∈ M) (fun x => x ∈ sub)
  have h1 : (l.filter (fun x => x ∈ M ∧ x ∈ sub)).length =
      (sub.filter (fun x => x ∈ M)).length := by
    apply length_eq_of_nodup_mem_iff (hnd.filter _) (hsubnd.filter _)
    intro x
    simp only [List.mem_filter, decide_eq_true_eq]
    constructor
    · rintro ⟨_, hxM, hxs⟩; exact ⟨hxs, hxM⟩
    · rintro ⟨hxs, hxM⟩; exact ⟨hsub x hxs, hxM, hxs⟩
  have h2 : (l.filter (fun x => x ∈ M ∧ ¬ x ∈ sub)).length =
      ((l.filter (fun x => x ∉ sub)).filter (fun x => x ∈ M)).length := by
    apply length_eq_of_nodup_mem_iff (hnd.filter _) ((hnd.filter _).filter _)
    intro x
    simp only [List.mem_filter, decide_eq_true_eq]
    tauto
  omega

theorem sound_diff {M : List Cell} {ki kj : Sentence}
    (h1 : SoundS M ki) (h2 : SoundS M kj)
    (n1 : ki.cells.Nodup) (n2 : kj.cells.Nodup)
    (hsub : ∀ c ∈ ki.cells, c ∈ kj.cells) :
    SoundS M (deriveSent ki kj) := by
  have hsplit := length_filter_mem_split (M := M) n2 n1 hsub
  unfold SoundS deriveSent at *
  simp only at *
  omega

/-! ## `inference` preserves the invariant -/

theorem infBody_inv {M : List Cell} {h w : ℕ} {s : MinesweeperAI} {cn : Bool}
    {ki kj : Sentence} (hs : AgentInv M h w s)
    (hki : ki ∈ s.knowledge) (hkj : kj ∈ s.knowledge) :
    AgentInv M h w (infBody s cn ki kj).1 ∧ Extends s (infBody s cn ki kj).1 := by
  obtain ⟨hkis, hkind, hkip⟩ := hs.kbGood ki hki
  obtain ⟨hkjs, hkjnd, hkjp⟩ := hs.kbGood kj hkj
  unfold infBody
  by_cases hsub : ∀ c ∈ ki.cells, c ∈ kj.cells
  · rw [if_pos hsub]
    by_cases hguard : 0 < (deriveSent ki kj).cells.length ∧
        ¬ containsSent s.knowledge (deriveSent ki kj)
    · rw [if_pos hguard]
      have hds : SoundS M (deriveSent ki kj) := sound_diff hkis hkjs hkind hkjnd hsub
      have hdsub : ∀ c ∈ (deriveSent ki kj).cells, c ∈ kj.cells := by
        intro c hc
        unfold deriveSent at hc
        exact (List.mem_filter.mp hc).1
      have hdnd : (deriveSent ki kj).cells.Nodup := hkjnd.filter _
      cases hkm : (deriveSent ki kj).known_mines with
      | some cs =>
        obtain ⟨hcs, hcount, _⟩ := known_mines_some hkm
        subst hcs
        exact foldl_inv (P := AgentInv M h w) (Q := fun c => c ∈ M ∧ InGrid h w c)
          (fun t a ht hq => ⟨agentInv_mark_mine hq.1 hq.2 ht, extends_mark_mine a t⟩)
          (deriveSent ki kj).cells s hs
          (fun c hc => ⟨conclusive_mines_mem hds hcount c hc,
            (hkjp c (hdsub c hc)).2.2⟩)
      | none =>
        cases hks : (deriveSent ki kj).known_safes with
        | some cs =>
          obtain ⟨hcs, hcount, _⟩ := known_safes_some hks
          subst hcs
          exact foldl_inv (P := AgentInv M h w) (Q := fun c => c ∉ M)
            (fun t a ht hq => ⟨agentInv_mark_safe hq ht, extends_mark_safe a t⟩)
            (deriveSent ki kj).cells s hs
            (fun c hc => conclusive_safes_not_mem hds hcount c hc)
        | none =>
          refine ⟨⟨hs.height_eq, hs.width_eq, hs.nodupMines, hs.nodupSafes,
            hs.nodupMoves, hs.minesGood, hs.safesGood, hs.movesGood, ?_⟩,
            ⟨rfl, rfl, fun _ hx => hx, fun _ hx => hx, fun _ hx => hx⟩⟩
          intro S hS
          rcases List.mem_append.mp hS with hold | hnew
          · exact hs.kbGood S hold
          · rw [List.mem_singleton] at hnew
            subst hnew
            exact ⟨hds, hdnd, fun c hc => hkjp c (hdsub c hc)⟩
    · rw [if_neg hguard]
      exact ⟨hs, extends_refl s⟩
  · rw [if_neg hsub]
    exact ⟨hs, extends_refl s⟩

theorem infInner_inv {M : List Cell} {h w : ℕ} :
    ∀ (fj i j : ℕ) (s : MinesweeperAI) (cn : Bool) (out : MinesweeperAI × Bool),
      infInner fj i j s cn = some out → AgentInv M h w s →
      AgentInv M h w out.1 ∧ Extends s out.1 := by
  intro fj
  induction fj with
  | zero => intro i j s cn out hrun; cases hrun
  | succ fj ih =>
    intro i j s cn out hrun hs
    unfold infInner at hrun
    cases hj : s.knowledge.get? j with
    | none =>
      rw [hj] at hrun
      cases hrun
      exact ⟨hs, extends_refl s⟩
    | some kj =>
      rw [hj] at hrun
      cases hi : s.knowledge.get? i with
      | none =>
        rw [hi] at hrun
        exact ih i (j + 1) s cn out hrun hs
      | some ki =>
        rw [hi] at hrun
        have hbody := @infBody_inv M h w s cn ki kj hs (List.get?_mem hi) (List.get?_mem hj)
        obtain ⟨hinv1, hext1⟩ := hbody
        obtain ⟨hinv2, hext2⟩ :=
          ih i (j + 1) (infBody s cn ki kj).1 (infBody s cn ki kj).2 out hrun hinv1
        exact ⟨hinv2, extends_trans hext1 hext2⟩

theorem infOuter_inv {M : List Cell} {h w : ℕ} :
    ∀ (fi i : ℕ) (s : MinesweeperAI) (cn : Bool) (out : MinesweeperAI × Bool),
      infOuter fi i s cn = some out → AgentInv M h w s →
      AgentInv M h w out.1 ∧ Extends s out.1 := by
  intro fi
  induction fi with
  | zero => intro i s cn out hrun; cases hrun
  | succ fi ih =>
    intro i s cn out hrun hs
    unfold infOuter at hrun
    cases hi : s.knowledge.get? i with
    | none =>
      rw [hi] at hrun
      cases hrun
      exact ⟨hs, extends_refl s⟩
    | some ki =>
      rw [hi] at hrun
      cases hinner : infInner (fi + 1) i 0 s cn with
      | none => rw [hinner] at hrun; cases hrun
      | some p =>
        rw [hinner] at hrun
        obtain ⟨hinv1, hext1⟩ := infInner_inv (fi + 1) i 0 s cn p hinner hs
        obtain ⟨hinv2, hext2⟩ := ih (i + 1) p.1 p.2 out hrun hinv1
        exact ⟨hinv2, extends_trans hext1 hext2⟩

theorem inference_inv {M : List Cell} {h w : ℕ} {f : ℕ}
    {s s' : MinesweeperAI} (hrun : inference f s = some s')
    (hs : AgentInv M h w s) : AgentInv M h w s' ∧ Extends s s' := by
  unfold inference at hrun
  cases houter : infOuter f 0 s false with
  | none => rw [houter] at hrun; cases hrun
  | some p =>
    rw [houter] at hrun
    obtain ⟨hinv1, hext1⟩ := infOuter_inv f 0 s false p houter hs
    obtain ⟨q, cn⟩ := p
    cases cn with
    | true =>
      have hrun' : additional_check f q = some s' := hrun
      obtain ⟨hinv2, hext2⟩ := additional_check_inv f q s' hrun' hinv1
      exact ⟨hinv2, extends_trans hext1 hext2⟩
    | false =>
      have hrun' : some q = some s' := hrun
      cases hrun'
      exact ⟨hinv1, hext1⟩

/-! ## The clipped box -/

theorem boxList_eq_product (a b c d : ℕ) :
    boxList a b c d = (List.range' a (b - a)) ×ˢ (List.range' c (d - c)) := rfl

theorem nodup_boxList (a b c d : ℕ) : (boxList a b c d).Nodup := by
  rw [boxList_eq_product]
  exact List.Nodup.product (List.nodup_range' ..) (List.nodup_range' ..)

theorem mem_boxList {a b c d : ℕ} {p : Cell} :
    p ∈ boxList a b c d ↔
      (a ≤ p.1 ∧ p.1 < a + (b - a)) ∧ (c ≤ p.2 ∧ p.2 < c + (d - c)) := by
  obtain ⟨x, y⟩ := p
  unfold boxList
  simp only [List.mem_flatMap, List.mem_map, List.mem_range'_1, Prod.mk.injEq]
  constructor
  · rintro ⟨i, hi, j, hj, hx, hy⟩
    subst hx
    subst hy
    exact ⟨hi, hj⟩
  · rintro ⟨h1, h2⟩
    exact ⟨x, h1, y, h2, rfl, rfl⟩

theorem surroundBox_grid {M : List Cell} {h w : ℕ} {s : MinesweeperAI}
    (hs : AgentInv M h w s) {cell p : Cell} (hp : p ∈ surroundBox s cell) :
    InGrid h w p := by
  unfold surroundBox at hp
  rw [hs.height_eq, hs.width_eq] at hp
  obtain ⟨⟨h1, h2⟩, h3, h4⟩ := mem_boxList.mp hp
  have hh : min (cell.1 + 2) h ≤ h := Nat.min_le_right _ _
  have hw' : min (cell.2 + 2) w ≤ w := Nat.min_le_right _ _
  exact ⟨by omega, by omega⟩

/-! ## The observation sentence is sound -/

theorem sos_good {M : List Cell} {h w : ℕ} {s : MinesweeperAI} {cell : Cell}
    {k : ℕ} {sent : Sentence}
    (hs : AgentInv M h w s) (hcM : cell ∉ M)
    (hk : k = nearby_mines h w M cell)
    (hsent : sentenceOfSurroundings s cell k = some sent) :
    SoundS M sent ∧ sent.cells.Nodup ∧
      ∀ c ∈ sent.cells, c ∉ s.mines ∧ c ∉ s.safes ∧ InGrid h w c := by
  have hBnd : (surroundBox s cell).Nodup := nodup_boxList ..
  unfold sentenceOfSurroundings at hsent
  by_cases hpos : 0 < ((surroundBox s cell).filter
      (fun p => p ∉ s.mines ∧ p ∉ s.safes)).length
  swap
  · rw [if_neg hpos] at hsent; cases hsent
  rw [if_pos hpos] at hsent
  cases hsent
  refine ⟨?_, hBnd.filter _, ?_⟩
  swap
  · intro c hc
    rw [List.mem_filter] at hc
    obtain ⟨hcB, hcP⟩ := hc
    simp only [decide_eq_true_eq] at hcP
    exact ⟨hcP.1, hcP.2, surroundBox_grid hs hcB⟩
  -- soundness of the adjusted count
  unfold SoundS
  simp only
  -- the observation count equals the number of mines in the box
  have hbox_eq : boxList (cell.1 - 1) (min (cell.1 + 2) h)
      (cell.2 - 1) (min (cell.2 + 2) w) = surroundBox s cell := by
    unfold surroundBox
    rw [hs.height_eq, hs.width_eq]
  have hk2 : k = ((surroundBox s cell).filter
      (fun p => p ≠ cell ∧ p ∈ M)).length := by
    rw [hk]
    unfold nearby_mines
    rw [hbox_eq]
  -- dropping the `p ≠ cell` conjunct changes nothing since `cell` is no mine
  have hstep1 : ((surroundBox s cell).filter (fun p => p ≠ cell ∧ p ∈ M)).length
      = ((surroundBox s cell).filter (fun p => p ∈ M)).length := by
    congr 1
    apply List.filter_congr
    intro x hx
    by_cases hxM : x ∈ M
    · have hxc : x ≠ cell := fun hxcell => hcM (hxcell ▸ hxM)
      simp [hxM, hxc]
    · simp [hxM]
  -- split the mines of the box by membership in the recorded mine list
  have hsplit := length_filter_split (surroundBox s cell)
    (fun p => p ∈ M) (fun p => p ∈ s.mines)
  -- every recorded mine in the box is a mine of `M`
  have hstep2 : ((surroundBox s cell).filter (fun p => p ∈ s.mines)).length
      = ((surroundBox s cell).filter (fun p => p ∈ M ∧ p ∈ s.mines)).length := by
    congr 1
    apply List.filter_congr
    intro x hx
    by_cases hxm : x ∈ s.mines
    · simp [hxm, (hs.minesGood x hxm).1]
    · simp [hxm]
  -- the unresolved box cells that are mines of `M` are exactly the
  -- box mines of `M` outside the recorded mines
  have hstep3 : (((surroundBox s cell).filter
        (fun p => p ∉ s.mines ∧ p ∉ s.safes)).filter (fun p => p ∈ M)).length
      = ((surroundBox s cell).filter (fun p => p ∈ M ∧ ¬ p ∈ s.mines)).length := by
    apply length_eq_of_nodup_mem_iff ((hBnd.filter _).filter _) (hBnd.filter _)
    intro x
    simp only [List.mem_filter, decide_eq_true_eq]
    constructor
    · rintro ⟨⟨hxB, hxm, hxs⟩, hxM⟩
      exact ⟨hxB, hxM, hxm⟩
    · rintro ⟨hxB, hxM, hxm⟩
      exact ⟨⟨hxB, hxm, fun hxs => hs.safesGood x hxs hxM⟩, hxM⟩
  omega

/-! ## `add_knowledge` preserves the invariant -/

theorem agentInv_add_move {M : List Cell} {h w : ℕ} {t : MinesweeperAI} {c : Cell}
    (ht : AgentInv M h w t) (hcs : c ∈ t.safes) (hcg : InGrid h w c) :
    AgentInv M h w { t with moves_made := insertCell c t.moves_made } := by
  refine ⟨ht.height_eq, ht.width_eq, ht.nodupMines, ht.nodupSafes,
    nodup_insertCell ht.nodupMoves, ht.minesGood, ht.safesGood, ?_, ht.kbGood⟩
  intro a ha
  rcases mem_insertCell.mp ha with rfl | ha'
  · exact ⟨hcs, hcg⟩
  · exact ht.movesGood a ha'

theorem observeMark_eq (s : MinesweeperAI) (cell : Cell) :
    observeMark s cell =
      { MinesweeperAI.mark_safe cell s with
        moves_made := insertCell cell s.moves_made } := rfl

theorem observeMark_inv {M : List Cell} {h w : ℕ} {s : MinesweeperAI}
    {cell : Cell} (hs : AgentInv M h w s) (hcell : InGrid h w cell)
    (hcM : cell ∉ M) : AgentInv M h w (observeMark s cell) := by
  rw [observeMark_eq]
  exact agentInv_add_move (agentInv_mark_safe hcM hs)
    (self_mem_insertCell cell s.safes) hcell

theorem extends_observeMark (s : MinesweeperAI) (cell : Cell) :
    Extends s (observeMark s cell) := by
  rw [observeMark_eq]
  exact ⟨rfl, rfl, fun a ha => subset_insertCell cell _ a ha,
    fun _ ha => ha, fun a ha => subset_insertCell cell _ a ha⟩

theorem observeBase_inv {M : List Cell} {h w : ℕ} {s : MinesweeperAI}
    {cell : Cell} {k : ℕ} (hs : AgentInv M h w s) (hcell : InGrid h w cell)
    (hcM : cell ∉ M) (hk : k = nearby_mines h w M cell) :
    AgentInv M h w (observeBase s cell k) ∧ Extends s (observeBase s cell k) := by
  have hmark := observeMark_inv hs hcell hcM
  have hext := extends_observeMark s cell
  unfold observeBase
  cases hsos : sentenceOfSurroundings (observeMark s cell) cell k with
  | none => exact ⟨hmark, hext⟩
  | some sent =>
    obtain ⟨hsound, hnd, hpr⟩ := sos_good hmark hcM hk hsos
    refine ⟨⟨hmark.height_eq, hmark.width_eq, hmark.nodupMines, hmark.nodupSafes,
      hmark.nodupMoves, hmark.minesGood, hmark.safesGood, hmark.movesGood, ?_⟩,
      extends_trans hext ⟨rfl, rfl, fun _ ha => ha, fun _ ha => ha, fun _ ha => ha⟩⟩
    intro S hS
    rcases List.mem_append.mp hS with hold | hnew
    · exact hmark.kbGood S hold
    · rw [List.mem_singleton] at hnew
      subst hnew
      exact ⟨hsound, hnd, hpr⟩

theorem add_knowledge_inv {M : List Cell} {h w f : ℕ} {s s' : MinesweeperAI}
    {cell : Cell} {k : ℕ} (hrun : add_knowledge f s cell k = some s')
    (hs : AgentInv M h w s) (hcell : InGrid h w cell) (hcM : cell ∉ M)
    (hk : k = nearby_mines h w M cell) :
    AgentInv M h w s' ∧ Extends s s' := by
  unfold add_knowledge at hrun
  obtain ⟨hobs, hextobs⟩ := observeBase_inv (k := k) hs hcell hcM hk
  cases hac : additional_check f (observeBase s cell k) with
  | none => rw [hac] at hrun; cases hrun
  | some s4 =>
    rw [hac] at hrun
    obtain ⟨hinv4, hext4⟩ := additional_check_inv f _ s4 hac hobs
    obtain ⟨hinv5, hext5⟩ := inference_inv hrun hinv4
    exact ⟨hinv5, extends_trans hextobs (extends_trans hext4 hext5)⟩

theorem agentInv_init (M : List Cell) (h w : ℕ) :
    AgentInv M h w (MinesweeperAI.init h w) := by
  refine ⟨rfl, rfl, List.nodup_nil, List.nodup_nil, List.nodup_nil, ?_, ?_, ?_, ?_⟩
  all_goals intro x hx; cases hx

theorem runSteps_inv {M : List Cell} {h w : ℕ} :
    ∀ (steps : List Step) (s s' : MinesweeperAI),
      ValidSteps h w M steps → runSteps s steps = some s' →
      AgentInv M h w s → AgentInv M h w s' ∧ Extends s s' := by
  intro steps
  induction steps with
  | nil =>
    intro s s' _ hrun hs
    cases hrun
    exact ⟨hs, extends_refl s⟩
  | cons st rest ih =>
    intro s s' hvalid hrun hs
    unfold runSteps at hrun
    cases hstep : add_knowledge st.fuel s st.cell st.cnt with
    | none => rw [hstep] at hrun; cases hrun
    | some u =>
      rw [hstep] at hrun
      obtain ⟨hg1, hg2, hg3, hg4⟩ := hvalid st (List.mem_cons_self st rest)
      obtain ⟨hinvu, hextu⟩ := add_knowledge_inv hstep hs ⟨hg1, hg2⟩ hg3 hg4
      obtain ⟨hinv', hext'⟩ := ih u s'
        (fun a ha => hvalid a (List.mem_cons_of_mem st ha)) hrun hinvu
      exact ⟨hinv', extends_trans hextu hext'⟩

/-- Every reachable state satisfies the full agent invariant. -/
theorem reachable_inv {h w : ℕ} {M : List Cell} {s : MinesweeperAI}
    (hr : Reachable h w M s) : AgentInv M h w s := by
  obtain ⟨steps, hvalid, hrun⟩ := hr
  exact (runSteps_inv steps (MinesweeperAI.init h w) s hvalid hrun
    (agentInv_init M h w)).1

/-! ## The termination measure of `additional_check` -/

theorem mark_mine_len_le (c : Cell) (S : Sentence) :
    (Sentence.mark_mine c S).cells.length ≤ S.cells.length := by
  unfold Sentence.mark_mine
  by_cases hc : c ∈ S.cells
  · rw [if_pos hc]
    exact List.length_filter_le _ _
  · rw [if_neg hc]

theorem mark_safe_len_le (c : Cell) (S : Sentence) :
    (Sentence.mark_safe c S).cells.length ≤ S.cells.length :=
  List.length_filter_le _ _

theorem mark_mine_len_lt {c : Cell} {S : Sentence} (hc : c ∈ S.cells) :
    (Sentence.mark_mine c S).cells.length < S.cells.length := by
  unfold Sentence.mark_mine
  rw [if_pos hc]
  exact length_filter_ne_lt hc

theorem mark_safe_len_lt {c : Cell} {S : Sentence} (hc : c ∈ S.cells) :
    (Sentence.mark_safe c S).cells.length < S.cells.length :=
  length_filter_ne_lt hc

theorem sum_len_map_le (f : Sentence → Sentence)
    (hf : ∀ S, (f S).cells.length ≤ S.cells.length) (l : List Sentence) :
    ((l.map f).map (fun T => T.cells.length)).sum ≤
      (l.map (fun T => T.cells.length)).sum := by
  induction l with
  | nil => simp
  | cons A rest ih =>
    simp only [List.map_cons, List.sum_cons]
    exact Nat.add_le_add (hf A) ih

theorem sum_len_map_lt (f : Sentence → Sentence)
    (hf : ∀ S, (f S).cells.length ≤ S.cells.length) {l : List Sentence}
    {S : Sentence} (hS : S ∈ l) (hflt : (f S).cells.length < S.cells.length) :
    ((l.map f).map (fun T => T.cells.length)).sum <
      (l.map (fun T => T.cells.length)).sum := by
  induction l with
  | nil => cases hS
  | cons A rest ih =>
    simp only [List.map_cons, List.sum_cons]
    rcases List.mem_cons.mp hS with heq | hrest
    · subst heq
      exact Nat.add_lt_add_of_lt_of_le hflt (sum_len_map_le f hf rest)
    · exact Nat.add_lt_add_of_le_of_lt (hf A) (ih hrest)

theorem muKB_mark_mine_le (c : Cell) (s : MinesweeperAI) :
    muKB (MinesweeperAI.mark_mine c s) ≤ muKB s :=
  sum_len_map_le (Sentence.mark_mine c) (mark_mine_len_le c) s.knowledge

theorem muKB_mark_safe_le (c : Cell) (s : MinesweeperAI) :
    muKB (MinesweeperAI.mark_safe c s) ≤ muKB s :=
  sum_len_map_le (Sentence.mark_safe c) (mark_safe_len_le c) s.knowledge

theorem muKB_mark_mine_lt {c : Cell} {s : MinesweeperAI} {S : Sentence}
    (hS : S ∈ s.knowledge) (hc : c ∈ S.cells) :
    muKB (MinesweeperAI.mark_mine c s) < muKB s :=
  sum_len_map_lt (Sentence.mark_mine c) (mark_mine_len_le c) hS
    (mark_mine_len_lt hc)

theorem muKB_mark_safe_lt {c : Cell} {s : MinesweeperAI} {S : Sentence}
    (hS : S ∈ s.knowledge) (hc : c ∈ S.cells) :
    muKB (MinesweeperAI.mark_safe c s) < muKB s :=
  sum_len_map_lt (Sentence.mark_safe c) (mark_safe_len_le c) hS
    (mark_safe_len_lt hc)

theorem sum_len_removeFirst_le (l : List Sentence) (T : Sentence) :
    ((removeFirstSent l T).map (fun S => S.cells.length)).sum ≤
      (l.map (fun S => S.cells.length)).sum := by
  induction l with
  | nil => simp [removeFirstSent]
  | cons A rest ih =>
    unfold removeFirstSent
    by_cases hA : Sentence.eqv A T
    · rw [if_pos hA]
      simp only [List.map_cons, List.sum_cons]
      omega
    · rw [if_neg hA]
      simp only [List.map_cons, List.sum_cons]
      omega

theorem muKB_acRemove_le (t : MinesweeperAI) (T : Sentence) :
    muKB (acRemove t T) ≤ muKB t := by
  unfold acRemove
  by_cases he : T.cells.isEmpty
  · rw [if_pos he]
    exact sum_len_removeFirst_le t.knowledge T
  · rw [if_neg he]

theorem acRemove_of_ne_nil {t : MinesweeperAI} {T : Sentence}
    (h : T.cells ≠ []) : acRemove t T = t := by
  unfold acRemove
  rw [if_neg]
  simpa using h

theorem eqv_cells_nil {A T : Sentence} (h : Sentence.eqv A T) (hT : T.cells = []) :
    A.cells = [] := by
  rw [List.eq_nil_iff_forall_not_mem]
  intro c hc
  have := h.1 c hc
  rw [hT] at this
  cases this

theorem mem_acRemove_knowledge {t : MinesweeperAI} {T T' : Sentence}
    (hT' : T' ∈ t.knowledge) (hne : T'.cells ≠ []) :
    T' ∈ (acRemove t T).knowledge := by
  unfold acRemove
  by_cases he : T.cells.isEmpty
  · rw [if_pos he]
    refine mem_removeFirstSent_of_ne hT' ?_
    intro heqv
    exact hne (eqv_cells_nil heqv (List.isEmpty_iff.mp he))
  · rw [if_neg he]
    exact hT'

/-! ## `additional_check` does not increase the measure -/

theorem optFold_mu_le {α : Type} {f : MinesweeperAI → α → Option MinesweeperAI}
    (hstep : ∀ t a t', f t a = some t' → muKB t' ≤ muKB t) :
    ∀ (l : List α) t t', optFold f t l = some t' → muKB t' ≤ muKB t := by
  intro l
  induction l with
  | nil =>
    intro t t' hrun
    cases hrun
    exact le_refl _
  | cons a rest ih =>
    intro t t' hrun
    unfold optFold at hrun
    cases heq : f t a with
    | none => rw [heq] at hrun; cases hrun
    | some u =>
      rw [heq] at hrun
      exact le_trans (ih u t' hrun) (hstep t a u heq)

theorem additional_check_mu_le :
    ∀ (n : ℕ) (s s' : MinesweeperAI), additional_check n s = some s' →
      muKB s' ≤ muKB s := by
  intro n
  induction n with
  | zero => intro s s' hrun; cases hrun
  | succ n ih =>
    intro s s' hrun
    unfold additional_check acBody at hrun
    refine optFold_mu_le ?_ s.knowledge s s' hrun
    intro t T t' hstep
    unfold acStep at hstep
    have hrem := muKB_acRemove_le t T
    cases hkm : T.known_mines with
    | some cs =>
      rw [hkm] at hstep
      refine le_trans (optFold_mu_le ?_ cs (acRemove t T) t' hstep) hrem
      intro u c u' hu
      exact le_trans (ih _ u' hu) (muKB_mark_mine_le c u)
    | none =>
      rw [hkm] at hstep
      cases hks : T.known_safes with
      | some cs =>
        rw [hks] at hstep
        refine le_trans (optFold_mu_le ?_ cs (acRemove t T) t' hstep) hrem
        intro u c u' hu
        exact le_trans (ih _ u' hu) (muKB_mark_safe_le c u)
      | none =>
        rw [hks] at hstep
        cases hstep
        exact hrem

/-! ## Enough fuel makes `additional_check` finish -/

theorem acCells_fuel_some (n mu0 : ℕ) (hmun : mu0 ≤ n)
    (Hsuf : ∀ u, muKB u < n → ∃ u', additional_check n u = some u')
    (mark : Cell → MinesweeperAI → MinesweeperAI)
    (hmark : ∀ c u, muKB (mark c u) ≤ muKB u) :
    ∀ (cs : List Cell) (t : MinesweeperAI), muKB t < mu0 →
      ∃ t', optFold (fun u c => additional_check n (mark c u)) t cs = some t' ∧
        muKB t' < mu0 := by
  intro cs
  induction cs with
  | nil => intro t ht; exact ⟨t, rfl, ht⟩
  | cons c cs' ih =>
    intro t ht
    have h1 : muKB (mark c t) < n :=
      lt_of_le_of_lt (hmark c t) (lt_of_lt_of_le ht hmun)
    obtain ⟨u', hu'⟩ := Hsuf (mark c t) h1
    have h2 : muKB u' < mu0 :=
      lt_of_le_of_lt (additional_check_mu_le n _ u' hu')
        (lt_of_le_of_lt (hmark c t) ht)
    obtain ⟨t', ht', hmu⟩ := ih u' h2
    refine ⟨t', ?_, hmu⟩
    unfold optFold
    rw [hu']
    exact ht'

theorem acLoop_fuel_some (n mu0 : ℕ) (hmun : mu0 ≤ n)
    (Hsuf : ∀ u, muKB u < n → ∃ u', additional_check n u = some u') :
    ∀ (pending : List Sentence) (t : MinesweeperAI),
      ((∀ T ∈ pending, T.cells ≠ [] → T ∈ t.knowledge) ∧ muKB t ≤ mu0) ∨
        muKB t < mu0 →
      ∃ t', optFold (acStep (additional_check n)) t pending = some t' := by
  intro pending
  induction pending with
  | nil => intro t _; exact ⟨t, rfl⟩
  | cons T rest ih =>
    intro t hinv
    cases hkm : T.known_mines with
    | some cs =>
      obtain ⟨hcs, hcount, hpos⟩ := known_mines_some hkm
      subst hcs
      have hTne : T.cells ≠ [] := by
        intro hnil
        rw [hnil] at hcount
        simp only [List.length_nil, Nat.cast_zero] at hcount
        omega
      have hrem : acRemove t T = t := acRemove_of_ne_nil hTne
      rcases hinv with ⟨hmem, hle⟩ | hlt
      · obtain ⟨c, cs', hcons⟩ := List.exists_cons_of_ne_nil hTne
        have hTmem : T ∈ t.knowledge := hmem T (List.mem_cons_self T rest) hTne
        have hcT : c ∈ T.cells := by rw [hcons]; exact List.mem_cons_self c cs'
        have hmlt : muKB (MinesweeperAI.mark_mine c t) < muKB t :=
          muKB_mark_mine_lt hTmem hcT
        have h1 : muKB (MinesweeperAI.mark_mine c t) < n :=
          lt_of_lt_of_le (lt_of_lt_of_le hmlt hle) hmun
        obtain ⟨u', hu'⟩ := Hsuf _ h1
        have h2 : muKB u' < mu0 :=
          lt_of_le_of_lt (additional_check_mu_le n _ u' hu')
            (lt_of_lt_of_le hmlt hle)
        obtain ⟨t1, ht1, hmu1⟩ := acCells_fuel_some n mu0 hmun Hsuf
          MinesweeperAI.mark_mine muKB_mark_mine_le cs' u' h2
        have hstep : acStep (additional_check n) t T = some t1 := by
          unfold acStep
          rw [hkm, hrem, hcons]
          unfold optFold
          rw [hu']
          exact ht1
        obtain ⟨t', ht'⟩ := ih t1 (Or.inr hmu1)
        refine ⟨t', ?_⟩
        unfold optFold
        rw [hstep]
        exact ht'
      · obtain ⟨t1, ht1, hmu1⟩ := acCells_fuel_some n mu0 hmun Hsuf
          MinesweeperAI.mark_mine muKB_mark_mine_le T.cells t hlt
        have hstep : acStep (additional_check n) t T = some t1 := by
          unfold acStep
          rw [hkm, hrem]
          exact ht1
        obtain ⟨t', ht'⟩ := ih t1 (Or.inr hmu1)
        refine ⟨t', ?_⟩
        unfold optFold
        rw [hstep]
        exact ht'
    | none =>
      cases hks : T.known_safes with
      | some cs =>
        obtain ⟨hcs, hcount, hpos⟩ := known_safes_some hks
        subst hcs
        have hTne : T.cells ≠ [] := List.length_pos.mp hpos
        have hrem : acRemove t T = t := acRemove_of_ne_nil hTne
        rcases hinv with ⟨hmem, hle⟩ | hlt
        · obtain ⟨c, cs', hcons⟩ := List.exists_cons_of_ne_nil hTne
          have hTmem : T ∈ t.knowledge := hmem T (List.mem_cons_self T rest) hTne
          have hcT : c ∈ T.cells := by rw [hcons]; exact List.mem_cons_self c cs'
          have hmlt : muKB (MinesweeperAI.mark_safe c t) < muKB t :=
            muKB_mark_safe_lt hTmem hcT
          have h1 : muKB (MinesweeperAI.mark_safe c t) < n :=
            lt_of_lt_of_le (lt_of_lt_of_le hmlt hle) hmun
          obtain ⟨u', hu'⟩ := Hsuf _ h1
          have h2 : muKB u' < mu0 :=
            lt_of_le_of_lt (additional_check_mu_le n _ u' hu')
              (lt_of_lt_of_le hmlt hle)
          obtain ⟨t1, ht1, hmu1⟩ := acCells_fuel_some n mu0 hmun Hsuf
            MinesweeperAI.mark_safe muKB_mark_safe_le cs' u' h2
          have hstep : acStep (additional_check n) t T = some t1 := by
            unfold acStep
            rw [hkm, hks, hrem, hcons]
            unfold optFold
            rw [hu']
            exact ht1
          obtain ⟨t', ht'⟩ := ih t1 (Or.inr hmu1)
          refine ⟨t', ?_⟩
          unfold optFold
          rw [hstep]
          exact ht'
        · obtain ⟨t1, ht1, hmu1⟩ := acCells_fuel_some n mu0 hmun Hsuf
            MinesweeperAI.mark_safe muKB_mark_safe_le T.cells t hlt
          have hstep : acStep (additional_check n) t T = some t1 := by
            unfold acStep
            rw [hkm, hks, hrem]
            exact ht1
          obtain ⟨t', ht'⟩ := ih t1 (Or.inr hmu1)
          refine ⟨t', ?_⟩
          unfold optFold
          rw [hstep]
          exact ht'
      | none =>
        have hstep : acStep (additional_check n) t T = some (acRemove t T) := by
          unfold acStep
          rw [hkm, hks]
        have hnext :
            ((∀ T' ∈ rest, T'.cells ≠ [] → T' ∈ (acRemove t T).knowledge) ∧
              muKB (acRemove t T) ≤ mu0) ∨ muKB (acRemove t T) < mu0 := by
          rcases hinv with ⟨hmem, hle⟩ | hlt
          · refine Or.inl ⟨?_, le_trans (muKB_acRemove_le t T) hle⟩
            intro T' hT' hne
            exact mem_acRemove_knowledge
              (hmem T' (List.mem_cons_of_mem T hT') hne) hne
          · exact Or.inr (lt_of_le_of_lt (muKB_acRemove_le t T) hlt)
        obtain ⟨t', ht'⟩ := ih (acRemove t T) hnext
        refine ⟨t', ?_⟩
        unfold optFold
        rw [hstep]
        exact ht'

theorem additional_check_suff :
    ∀ (n : ℕ) (s : MinesweeperAI), muKB s < n →
      ∃ s', additional_check n s = some s' := by
  intro n
  induction n with
  | zero => intro s hs; omega
  | succ n ih =>
    intro s hmu
    have hmun : muKB s ≤ n := by omega
    obtain ⟨t', ht'⟩ := acLoop_fuel_some n (muKB s) hmun ih s.knowledge s
      (Or.inl ⟨fun T hT _ => hT, le_refl _⟩)
    exact ⟨t', ht'⟩

/-! ## The 8-neighbourhood, as the specification words it -/

/-- The specification-side neighbourhood (for comparison with the code's
clipped box): `p` is one of the up-to-8 grid-adjacent cells of `cell`,
clipped to the grid bounds, the cell itself excluded. -/
def IsNeighbor (h w : ℕ) (cell p : Cell) : Prop :=
  p ≠ cell ∧ p.1 < h ∧ p.2 < w ∧
  p.1 ≤ cell.1 + 1 ∧ cell.1 ≤ p.1 + 1 ∧ p.2 ≤ cell.2 + 1 ∧ cell.2 ≤ p.2 + 1

instance (h w : ℕ) (cell p : Cell) : Decidable (IsNeighbor h w cell p) := by
  unfold IsNeighbor; infer_instance

/-- The number of distinct in-bounds neighbours of `cell` recorded as
mines: the adjustment `m` subtracted from the observed count. -/
def specAdjMines (s : MinesweeperAI) (cell : Cell) : ℕ :=
  (s.mines.toFinset.filter (fun p => IsNeighbor s.height s.width cell p)).card

theorem mem_surroundBox_iff {s : MinesweeperAI} {cell p : Cell} :
    p ∈ surroundBox s cell ∧ p ≠ cell ↔
      IsNeighbor s.height s.width cell p := by
  unfold surroundBox IsNeighbor
  rw [mem_boxList]
  constructor
  · rintro ⟨⟨⟨h1, h2⟩, h3, h4⟩, hne⟩
    have h2' : p.1 < min (cell.1 + 2) s.height := by omega
    have h4' : p.2 < min (cell.2 + 2) s.width := by omega
    have hh1 := lt_of_lt_of_le h2' (Nat.min_le_right _ _)
    have hh2 := lt_of_lt_of_le h2' (Nat.min_le_left _ _)
    have hw1 := lt_of_lt_of_le h4' (Nat.min_le_right _ _)
    have hw2 := lt_of_lt_of_le h4' (Nat.min_le_left _ _)
    exact ⟨hne, hh1, hw1, by omega, by omega, by omega, by omega⟩
  · rintro ⟨hne, hh, hw', hb1, hb2, hb3, hb4⟩
    have h2' : p.1 < min (cell.1 + 2) s.height := Nat.lt_min.mpr ⟨by omega, hh⟩
    have h4' : p.2 < min (cell.2 + 2) s.width := Nat.lt_min.mpr ⟨by omega, hw'⟩
    exact ⟨⟨⟨by omega, by omega⟩, by omega, by omega⟩, hne⟩

theorem observeMark_mines (s : MinesweeperAI) (cell : Cell) :
    (observeMark s cell).mines = s.mines := rfl

theorem observeMark_safes (s : MinesweeperAI) (cell : Cell) :
    (observeMark s cell).safes = insertCell cell s.safes := rfl

theorem mem_obs_filter_iff {s : MinesweeperAI} {cell p : Cell} :
    p ∈ (surroundBox (observeMark s cell) cell).filter
        (fun q => q ∉ (observeMark s cell).mines ∧
          q ∉ (observeMark s cell).safes) ↔
      IsNeighbor s.height s.width cell p ∧ p ∉ s.safes ∧ p ∉ s.mines := by
  rw [List.mem_filter]
  simp only [decide_eq_true_eq, observeMark_mines, observeMark_safes]
  constructor
  · rintro ⟨hbox, hmines, hsafes⟩
    have hne : p ≠ cell := by
      intro heq
      exact hsafes (heq ▸ self_mem_insertCell cell s.safes)
    have hbox' : p ∈ surroundBox (observeMark s cell) cell ∧ p ≠ cell := ⟨hbox, hne⟩
    have := mem_surroundBox_iff.mp hbox'
    exact ⟨this, fun hs' => hsafes (subset_insertCell cell _ p hs'), hmines⟩
  · rintro ⟨hnb, hsafes, hmines⟩
    have hne : p ≠ cell := hnb.1
    obtain ⟨hbox, _⟩ := mem_surroundBox_iff.mpr hnb
    refine ⟨hbox, hmines, ?_⟩
    intro hmem
    rcases mem_insertCell.mp hmem with heq | hs'
    · exact hne heq
    · exact hsafes hs'

theorem obs_adj_mines_eq {s : MinesweeperAI} {cell : Cell}
    (hcm : cell ∉ s.mines) :
    ((surroundBox (observeMark s cell) cell).filter
        (fun q => q ∈ (observeMark s cell).mines)).length =
      specAdjMines s cell := by
  have hnd : ((surroundBox (observeMark s cell) cell).filter
      (fun q => q ∈ (observeMark s cell).mines)).Nodup :=
    (nodup_boxList ..).filter _
  rw [← List.toFinset_card_of_nodup hnd]
  unfold specAdjMines
  congr 1
  ext p
  rw [List.mem_toFinset, List.mem_filter, Finset.mem_filter, List.mem_toFinset]
  simp only [decide_eq_true_eq, observeMark_mines]
  constructor
  · rintro ⟨hbox, hmine⟩
    have hne : p ≠ cell := fun heq => hcm (heq ▸ hmine)
    exact ⟨hmine, mem_surroundBox_iff.mp ⟨hbox, hne⟩⟩
  · rintro ⟨hmine, hnb⟩
    exact ⟨(mem_surroundBox_iff.mpr hnb).1, hmine⟩

/-! ## Counting grid cells for `make_random_move` -/

theorem movesGood_disjoint_mines {M : List Cell} {h w : ℕ} {s : MinesweeperAI}
    (hs : AgentInv M h w s) : ∀ c ∈ s.moves_made, c ∉ s.mines := by
  intro c hc hcm
  exact hs.safesGood c (hs.movesGood c hc).1 (hs.minesGood c hcm).1

theorem cover_card_ge {M : List Cell} {h w : ℕ} {s : MinesweeperAI}
    (hs : AgentInv M h w s)
    (hcover : ∀ p : Cell, InGrid h w p → p ∈ s.moves_made ∨ p ∈ s.mines) :
    h * w ≤ s.moves_made.length + s.mines.length := by
  have hsub : (Finset.range h ×ˢ Finset.range w) ⊆
      s.moves_made.toFinset ∪ s.mines.toFinset := by
    intro p hp
    rw [Finset.mem_product, Finset.mem_range, Finset.mem_range] at hp
    rcases hcover p ⟨hp.1, hp.2⟩ with hc | hc
    · exact Finset.mem_union_left _ (List.mem_toFinset.mpr hc)
    · exact Finset.mem_union_right _ (List.mem_toFinset.mpr hc)
  calc h * w = (Finset.range h ×ˢ Finset.range w).card := by
        rw [Finset.card_product, Finset.card_range, Finset.card_range]
    _ ≤ (s.moves_made.toFinset ∪ s.mines.toFinset).card := Finset.card_le_card hsub
    _ ≤ s.moves_made.toFinset.card + s.mines.toFinset.card := Finset.card_union_le _ _
    _ = s.moves_made.length + s.mines.length := by
        rw [List.toFinset_card_of_nodup hs.nodupMoves,
          List.toFinset_card_of_nodup hs.nodupMines]

theorem noncover_card_lt {M : List Cell} {h w : ℕ} {s : MinesweeperAI}
    (hs : AgentInv M h w s) {p0 : Cell} (hg : InGrid h w p0)
    (hp1 : p0 ∉ s.moves_made) (hp2 : p0 ∉ s.mines) :
    s.moves_made.length + s.mines.length < h * w := by
  have hsub : s.moves_made.toFinset ∪ s.mines.toFinset ⊆
      (Finset.range h ×ˢ Finset.range w) := by
    intro p hp
    rw [Finset.mem_product, Finset.mem_range, Finset.mem_range]
    rcases Finset.mem_union.mp hp with hc | hc
    · have := (hs.movesGood p (List.mem_toFinset.mp hc)).2
      exact ⟨this.1, this.2⟩
    · have := (hs.minesGood p (List.mem_toFinset.mp hc)).2
      exact ⟨this.1, this.2⟩
  have hdisj : Disjoint s.moves_made.toFinset s.mines.toFinset := by
    rw [Finset.disjoint_left]
    intro a ha hb
    exact movesGood_disjoint_mines hs a (List.mem_toFinset.mp ha)
      (List.mem_toFinset.mp hb)
  have hssub : s.moves_made.toFinset ∪ s.mines.toFinset ⊂
      (Finset.range h ×ˢ Finset.range w) := by
    rw [Finset.ssubset_iff_of_subset hsub]
    refine ⟨p0, ?_, ?_⟩
    · rw [Finset.mem_product, Finset.mem_range, Finset.mem_range]
      exact ⟨hg.1, hg.2⟩
    · rw [Finset.mem_union, List.mem_toFinset, List.mem_toFinset]
      rintro (hc | hc)
      · exact hp1 hc
      · exact hp2 hc
  calc s.moves_made.length + s.mines.length
      = (s.moves_made.toFinset ∪ s.mines.toFinset).card := by
        rw [Finset.card_union_of_disjoint hdisj,
          List.toFinset_card_of_nodup hs.nodupMoves,
          List.toFinset_card_of_nodup hs.nodupMines]
    _ < (Finset.range h ×ˢ Finset.range w).card := Finset.card_lt_card hssub
    _ = h * w := by rw [Finset.card_product, Finset.card_range, Finset.card_range]

/-! ## Unconditional monotonicity of the tracked sets -/

theorem additional_check_extends :
    ∀ (n : ℕ) (s s' : MinesweeperAI), additional_check n s = some s' →
      Extends s s' := by
  intro n
  induction n with
  | zero => intro s s' hrun; cases hrun
  | succ n ih =>
    intro s s' hrun
    unfold additional_check acBody at hrun
    refine (optFold_inv (P := fun _ => True) (Q := fun _ => True)
      ?_ s.knowledge s s' trivial (fun _ _ => trivial) hrun).2
    intro t T t' _ _ hstep
    refine ⟨trivial, ?_⟩
    unfold acStep at hstep
    cases hkm : T.known_mines with
    | some cs =>
      rw [hkm] at hstep
      refine extends_trans (extends_acRemove t T)
        (optFold_inv (P := fun _ => True) (Q := fun _ => True) ?_ cs
          (acRemove t T) t' trivial (fun _ _ => trivial) hstep).2
      intro u c u' _ _ hu
      exact ⟨trivial, extends_trans (extends_mark_mine c u) (ih _ u' hu)⟩
    | none =>
      rw [hkm] at hstep
      cases hks : T.known_safes with
      | some cs =>
        rw [hks] at hstep
        refine extends_trans (extends_acRemove t T)
          (optFold_inv (P := fun _ => True) (Q := fun _ => True) ?_ cs
            (acRemove t T) t' trivial (fun _ _ => trivial) hstep).2
        intro u c u' _ _ hu
        exact ⟨trivial, extends_trans (extends_mark_safe c u) (ih _ u' hu)⟩
      | none =>
        rw [hks] at hstep
        cases hstep
        exact extends_acRemove t T

theorem infBody_extends (s : MinesweeperAI) (cn : Bool) (ki kj : Sentence) :
    Extends s (infBody s cn ki kj).1 := by
  unfold infBody
  by_cases hsub : ∀ c ∈ ki.cells, c ∈ kj.cells
  · rw [if_pos hsub]
    by_cases hguard : 0 < (deriveSent ki kj).cells.length ∧
        ¬ containsSent s.knowledge (deriveSent ki kj)
    · rw [if_pos hguard]
      cases hkm : (deriveSent ki kj).known_mines with
      | some cs =>
        exact (foldl_inv (P := fun _ => True) (Q := fun _ => True)
          (fun t a _ _ => ⟨trivial, extends_mark_mine a t⟩) cs s trivial
          (fun _ _ => trivial)).2
      | none =>
        cases hks : (deriveSent ki kj).known_safes with
        | some cs =>
          exact (foldl_inv (P := fun _ => True) (Q := fun _ => True)
            (fun t a _ _ => ⟨trivial, extends_mark_safe a t⟩) cs s trivial
            (fun _ _ => trivial)).2
        | none =>
          exact ⟨rfl, rfl, fun _ hx => hx, fun _ hx => hx, fun _ hx => hx⟩
    · rw [if_neg hguard]
      exact extends_refl s
  · rw [if_neg hsub]
    exact extends_refl s

theorem infInner_extends :
    ∀ (fj i j : ℕ) (s : MinesweeperAI) (cn : Bool) (out : MinesweeperAI × Bool),
      infInner fj i j s cn = some out → Extends s out.1 := by
  intro fj
  induction fj with
  | zero => intro i j s cn out hrun; cases hrun
  | succ fj ih =>
    intro i j s cn out hrun
    unfold infInner at hrun
    cases hj : s.knowledge.get? j with
    | none =>
      rw [hj] at hrun
      cases hrun
      exact extends_refl s
    | some kj =>
      rw [hj] at hrun
      cases hi : s.knowledge.get? i with
      | none =>
        rw [hi] at hrun
        exact ih i (j + 1) s cn out hrun
      | some ki =>
        rw [hi] at hrun
        exact extends_trans (infBody_extends s cn ki kj)
          (ih i (j + 1) (infBody s cn ki kj).1 (infBody s cn ki kj).2 out hrun)

theorem infOuter_extends :
    ∀ (fi i : ℕ) (s : MinesweeperAI) (cn : Bool) (out : MinesweeperAI × Bool),
      infOuter fi i s cn = some out → Extends s out.1 := by
  intro fi
  induction fi with
  | zero => intro i s cn out hrun; cases hrun
  | succ fi ih =>
    intro i s cn out hrun
    unfold infOuter at hrun
    cases hi : s.knowledge.get? i with
    | none =>
      rw [hi] at hrun
      cases hrun
      exact extends_refl s
    | some ki =>
      rw [hi] at hrun
      cases hinner : infInner (fi + 1) i 0 s cn with
      | none => rw [hinner] at hrun; cases hrun
      | some p =>
        rw [hinner] at hrun
        exact extends_trans (infInner_extends (fi + 1) i 0 s cn p hinner)
          (ih (i + 1) p.1 p.2 out hrun)

theorem inference_extends {f : ℕ} {s s' : MinesweeperAI}
    (hrun : inference f s = some s') : Extends s s' := by
  unfold inference at hrun
  cases houter : infOuter f 0 s false with
  | none => rw [houter] at hrun; cases hrun
  | some p =>
    rw [houter] at hrun
    have hext1 := infOuter_extends f 0 s false p houter
    obtain ⟨q, cn⟩ := p
    cases cn with
    | true =>
      have hrun' : additional_check f q = some s' := hrun
      exact extends_trans hext1 (additional_check_extends f q s' hrun')
    | false =>
      have hrun' : some q = some s' := hrun
      cases hrun'
      exact hext1

theorem observeBase_extends (s : MinesweeperAI) (cell : Cell) (k : ℕ) :
    Extends s (observeBase s cell k) := by
  unfold observeBase
  cases hsos : sentenceOfSurroundings (observeMark s cell) cell k with
  | none => exact extends_observeMark s cell
  | some sent =>
    exact extends_trans (extends_observeMark s cell)
      ⟨rfl, rfl, fun _ hx => hx, fun _ hx => hx, fun _ hx => hx⟩

theorem add_knowledge_extends {f : ℕ} {s s' : MinesweeperAI} {cell : Cell}
    {k : ℕ} (hrun : add_knowledge f s cell k = some s') : Extends s s' := by
  unfold add_knowledge at hrun
  cases hac : additional_check f (observeBase s cell k) with
  | none => rw [hac] at hrun; cases hrun
  | some s4 =>
    rw [hac] at hrun
    exact extends_trans (observeBase_extends s cell k)
      (extends_trans (additional_check_extends f _ s4 hac)
        (inference_extends hrun))

/-! ## Marking no-ops -/

theorem mark_mine_no_op {c : Cell} {S : Sentence} (h : c ∉ S.cells) :
    Sentence.mark_mine c S = S := by
  unfold Sentence.mark_mine
  rw [if_neg h]

theorem mark_safe_no_op {c : Cell} {S : Sentence} (h : c ∉ S.cells) :
    Sentence.mark_safe c S = S := by
  unfold Sentence.mark_safe
  rw [filter_ne_eq_self h]

theorem not_mem_mark_mine (c : Cell) (S : Sentence) :
    c ∉ (Sentence.mark_mine c S).cells := by
  intro hc
  exact (mark_mine_cells_sub c hc).2 rfl

theorem not_mem_mark_safe (c : Cell) (S : Sentence) :
    c ∉ (Sentence.mark_safe c S).cells := by
  intro hc
  exact (mark_safe_cells_mem.mp hc).2 rfl

/-! ## A reachable state on which `add_knowledge` is not closed

On a 3 x 6 grid with mines at (2,0), (2,3) and (2,5), probe the five
cells (0,0)..(0,4) (all report 0, resolving rows 0 and 1 as safe), then
(1,3), (1,4), (1,0) and (1,1) with their true counts 1, 2, 1, 1.  After
the last `add_knowledge` call returns, the knowledge base still contains
the sentences `{(2,3),(2,4)} = 1` and `{(2,3),(2,4),(2,5)} = 2`, whose
subset difference would mark (2,5) as a mine, yet `mines` is empty:
running `additional_check` followed by `inference` once more adds (2,5)
to `mines`. -/

def cexMines : List Cell := [(2, 0), (2, 3), (2, 5)]

def cexSteps : List Step :=
  [⟨(0, 0), 0, 40⟩, ⟨(0, 1), 0, 40⟩, ⟨(0, 2), 0, 40⟩, ⟨(0, 3), 0, 40⟩,
   ⟨(0, 4), 0, 40⟩, ⟨(1, 3), 1, 40⟩, ⟨(1, 4), 2, 40⟩, ⟨(1, 0), 1, 40⟩,
   ⟨(1, 1), 1, 40⟩]

def cexState : Option MinesweeperAI :=
  runSteps (MinesweeperAI.init 3 6) cexSteps

def cexRerun : Option MinesweeperAI :=
  cexState.bind (fun s => (additional_check 40 s).bind (inference 40))

/-- C1: the claim fails on the code.  The observation sequence `cexSteps`
is valid for the mine set `cexMines` on a 3 x 6 grid, the state reached
after the last `add_knowledge` call has an empty `mines` set, and running
fact extraction (`additional_check`) followed by derivation (`inference`)
once more on that state adds the cell (2,5) to `mines` — so the closure
reached by `add_knowledge` is not a fixpoint, contradicting both the
specification and the docstring of `add_knowledge` (steps 4 and 5). -/
theorem c1_add_knowledge_not_closed :
    ValidSteps 3 6 cexMines cexSteps ∧
    Option.map (fun s => decide (s.mines = [])) cexState = some true ∧
    Option.map (fun t => decide ((2, 5) ∈ t.mines)) cexRerun = some true :=
  ⟨by decide, by rfl, by rfl⟩

/-- C2: for every agent state reachable by valid (consistent)
observations, the `mines` and `safes` sets are disjoint, and no sentence
of the knowledge base references a resolved cell. -/
theorem c2_kb_invariant (h w : ℕ) (M : List Cell) (s : MinesweeperAI)
    (hr : Reachable h w M s) :
    (∀ c ∈ s.mines, c ∉ s.safes) ∧
    (∀ S ∈ s.knowledge, ∀ c ∈ S.cells, c ∉ s.mines ∧ c ∉ s.safes) := by
  have hinv := reachable_inv hr
  constructor
  · intro c hcm hcs
    exact hinv.safesGood c hcs (hinv.minesGood c hcm).1
  · intro S hS c hc
    exact ⟨((hinv.kbGood S hS).2.2 c hc).1, ((hinv.kbGood S hS).2.2 c hc).2.1⟩

theorem c2_kb_invariant_witness :
    Reachable 1 1 [] (MinesweeperAI.init 1 1) ∧
    ((∀ c ∈ (MinesweeperAI.init 1 1).mines, c ∉ (MinesweeperAI.init 1 1).safes) ∧
     (∀ S ∈ (MinesweeperAI.init 1 1).knowledge, ∀ c ∈ S.cells,
       c ∉ (MinesweeperAI.init 1 1).mines ∧ c ∉ (MinesweeperAI.init 1 1).safes)) :=
  ⟨⟨[], by decide, rfl⟩,
   c2_kb_invariant 1 1 [] (MinesweeperAI.init 1 1) ⟨[], by decide, rfl⟩⟩

/-- C3: on every reachable state, every stored sentence satisfies
`0 ≤ count ≤ |cells|`, and every sentence derived by subset subtraction
from two stored sentences with `S1.cells ⊆ S2.cells` satisfies the same
bounds. -/
theorem c3_subset_subtraction_bounds (h w : ℕ) (M : List Cell)
    (s : MinesweeperAI) (hr : Reachable h w M s) :
    (∀ S ∈ s.knowledge, 0 ≤ S.count ∧ S.count ≤ (S.cells.length : ℤ)) ∧
    (∀ S1 ∈ s.knowledge, ∀ S2 ∈ s.knowledge, (∀ c ∈ S1.cells, c ∈ S2.cells) →
      0 ≤ (deriveSent S1 S2).count ∧
      (deriveSent S1 S2).count ≤ ((deriveSent S1 S2).cells.length : ℤ)) := by
  have hinv := reachable_inv hr
  have bound : ∀ T : Sentence, SoundS M T →
      0 ≤ T.count ∧ T.count ≤ (T.cells.length : ℤ) := by
    intro T hT
    unfold SoundS at hT
    have := List.length_filter_le (fun c => decide (c ∈ M)) T.cells
    omega
  constructor
  · intro S hS
    exact bound S (hinv.kbGood S hS).1
  · intro S1 h1 S2 h2 hsub
    exact bound _ (sound_diff (hinv.kbGood S1 h1).1 (hinv.kbGood S2 h2).1
      (hinv.kbGood S1 h1).2.1 (hinv.kbGood S2 h2).2.1 hsub)

theorem c3_subset_subtraction_bounds_witness :
    Reachable 1 1 [] (MinesweeperAI.init 1 1) ∧
    (∀ S ∈ (MinesweeperAI.init 1 1).knowledge,
      0 ≤ S.count ∧ S.count ≤ (S.cells.length : ℤ)) :=
  ⟨⟨[], by decide, rfl⟩,
   (c3_subset_subtraction_bounds 1 1 [] (MinesweeperAI.init 1 1)
     ⟨[], by decide, rfl⟩).1⟩

/-- C4: for every `add_knowledge` call on a state whose recorded mines do
not contain the probed cell, the sentence-construction step appends
exactly one sentence over the unresolved in-bounds neighbours of the cell
with count `count - m` (`m` the number of in-bounds neighbours already
recorded as mines) when that neighbour set is non-empty, and appends
nothing when it is empty. -/
theorem c4_observation_sentence (s : MinesweeperAI) (cell : Cell) (k : ℕ)
    (hcm : cell ∉ s.mines) :
    ((∀ p : Cell, IsNeighbor s.height s.width cell p →
        p ∈ s.safes ∨ p ∈ s.mines) →
      (observeBase s cell k).knowledge = (observeMark s cell).knowledge) ∧
    (∀ p0 : Cell, IsNeighbor s.height s.width cell p0 → p0 ∉ s.safes →
      p0 ∉ s.mines →
      ∃ cs : List Cell, cs.Nodup ∧
        (∀ p : Cell, p ∈ cs ↔
          IsNeighbor s.height s.width cell p ∧ p ∉ s.safes ∧ p ∉ s.mines) ∧
        (observeBase s cell k).knowledge =
          (observeMark s cell).knowledge ++
            [⟨cs, (k : ℤ) - (specAdjMines s cell : ℤ)⟩]) := by
  constructor
  · intro hres
    have hFL : (surroundBox (observeMark s cell) cell).filter
        (fun q => q ∉ (observeMark s cell).mines ∧
          q ∉ (observeMark s cell).safes) = [] := by
      rw [List.eq_nil_iff_forall_not_mem]
      intro p hp
      obtain ⟨hnb, hsafes, hmines⟩ := mem_obs_filter_iff.mp hp
      rcases hres p hnb with hx | hx
      · exact hsafes hx
      · exact hmines hx
    have hsos : sentenceOfSurroundings (observeMark s cell) cell k = none := by
      unfold sentenceOfSurroundings
      rw [hFL]
      simp
    unfold observeBase
    rw [hsos]
  · intro p0 hnb h1 h2
    have hp0 : p0 ∈ (surroundBox (observeMark s cell) cell).filter
        (fun q => q ∉ (observeMark s cell).mines ∧
          q ∉ (observeMark s cell).safes) :=
      mem_obs_filter_iff.mpr ⟨hnb, h1, h2⟩
    have hpos : 0 < ((surroundBox (observeMark s cell) cell).filter
        (fun q => q ∉ (observeMark s cell).mines ∧
          q ∉ (observeMark s cell).safes)).length :=
      List.length_pos.mpr (List.ne_nil_of_mem hp0)
    have hlen := @obs_adj_mines_eq s cell hcm
    have hsos : sentenceOfSurroundings (observeMark s cell) cell k =
        some ⟨(surroundBox (observeMark s cell) cell).filter
          (fun q => q ∉ (observeMark s cell).mines ∧
            q ∉ (observeMark s cell).safes),
          (k : ℤ) - (specAdjMines s cell : ℤ)⟩ := by
      unfold sentenceOfSurroundings
      rw [if_pos hpos, hlen]
    refine ⟨_, (nodup_boxList ..).filter _, fun p => mem_obs_filter_iff, ?_⟩
    unfold observeBase
    rw [hsos]
    rfl

theorem c4_observation_sentence_witness :
    ((0, 0) : Cell) ∉ (MinesweeperAI.init 2 2).mines ∧
    IsNeighbor (MinesweeperAI.init 2 2).height (MinesweeperAI.init 2 2).width
      (0, 0) (0, 1) ∧
    (∃ cs : List Cell, cs.Nodup ∧
      (∀ p : Cell, p ∈ cs ↔
        IsNeighbor (MinesweeperAI.init 2 2).height (MinesweeperAI.init 2 2).width
          (0, 0) p ∧ p ∉ (MinesweeperAI.init 2 2).safes ∧
          p ∉ (MinesweeperAI.init 2 2).mines) ∧
      (observeBase (MinesweeperAI.init 2 2) (0, 0) 1).knowledge =
        (observeMark (MinesweeperAI.init 2 2) (0, 0)).knowledge ++
          [⟨cs, (1 : ℤ) - (specAdjMines (MinesweeperAI.init 2 2) (0, 0) : ℤ)⟩]) :=
  ⟨by decide, by decide,
   (c4_observation_sentence (MinesweeperAI.init 2 2) (0, 0) 1 (by decide)).2
     (0, 1) (by decide) (by decide) (by decide)⟩

/-- C5: `known_mines` returns the full cell set exactly when
`count = |cells| > 0`, `known_safes` exactly when `count = 0 < |cells|`,
and the empty sentence with count 0 yields no conclusion from either. -/
theorem c5_sentence_queries (S : Sentence) :
    (S.count = (S.cells.length : ℤ) ∧ 0 < S.count →
      S.known_mines = some S.cells) ∧
    (¬(S.count = (S.cells.length : ℤ) ∧ 0 < S.count) →
      S.known_mines = none) ∧
    (S.count = 0 ∧ 0 < S.cells.length → S.known_safes = some S.cells) ∧
    (¬(S.count = 0 ∧ 0 < S.cells.length) → S.known_safes = none) ∧
    (S.count = 0 ∧ S.cells = [] → S.known_mines = none ∧ S.known_safes = none) := by
  refine ⟨?_, ?_, ?_, ?_, ?_⟩
  · intro hc
    unfold Sentence.known_mines
    rw [if_pos ⟨hc.1, hc.2⟩]
  · intro hc
    unfold Sentence.known_mines
    rw [if_neg]
    intro hcon
    exact hc ⟨hcon.1, hcon.2⟩
  · intro hc
    unfold Sentence.known_safes
    rw [if_pos ⟨hc.1, hc.2⟩]
  · intro hc
    unfold Sentence.known_safes
    rw [if_neg]
    intro hcon
    exact hc ⟨hcon.1, hcon.2⟩
  · rintro ⟨hc0, hnil⟩
    constructor
    · unfold Sentence.known_mines
      rw [if_neg]
      rintro ⟨_, hpos⟩
      omega
    · unfold Sentence.known_safes
      rw [if_neg]
      rintro ⟨_, hpos⟩
      rw [hnil] at hpos
      simp at hpos

theorem c5_sentence_queries_witness :
    ((Sentence.mk [(0, 0)] 1).count = ((Sentence.mk [(0, 0)] 1).cells.length : ℤ) ∧
      0 < (Sentence.mk [(0, 0)] 1).count) ∧
    (Sentence.mk [(0, 0)] 1).known_mines = some [(0, 0)] ∧
    (Sentence.mk [] 0).known_mines = none ∧
    (Sentence.mk [] 0).known_safes = none :=
  ⟨by decide, (c5_sentence_queries (Sentence.mk [(0, 0)] 1)).1 (by decide),
   ((c5_sentence_queries (Sentence.mk [] 0)).2.2.2.2 (by decide)).1,
   ((c5_sentence_queries (Sentence.mk [] 0)).2.2.2.2 (by decide)).2⟩

/-- C6: `mark_mine` removes a present cell and decrements the count, and
is a no-op on an absent cell; `mark_safe` removes the cell leaving the
count unchanged, and is a no-op on an absent cell; both operations are
idempotent. -/
theorem c6_marking_idempotent (S : Sentence) (c : Cell) :
    (c ∈ S.cells →
      (∀ x : Cell, x ∈ (Sentence.mark_mine c S).cells ↔
        x ∈ S.cells ∧ x ≠ c) ∧
      (Sentence.mark_mine c S).count = S.count - 1) ∧
    (c ∉ S.cells → Sentence.mark_mine c S = S) ∧
    (∀ x : Cell, x ∈ (Sentence.mark_safe c S).cells ↔ x ∈ S.cells ∧ x ≠ c) ∧
    (Sentence.mark_safe c S).count = S.count ∧
    (c ∉ S.cells → Sentence.mark_safe c S = S) ∧
    Sentence.mark_mine c (Sentence.mark_mine c S) = Sentence.mark_mine c S ∧
    Sentence.mark_safe c (Sentence.mark_safe c S) = Sentence.mark_safe c S := by
  refine ⟨?_, fun h => mark_mine_no_op h, fun x => mark_safe_cells_mem, rfl,
    fun h => mark_safe_no_op h, mark_mine_no_op (not_mem_mark_mine c S),
    mark_safe_no_op (not_mem_mark_safe c S)⟩
  intro hc
  constructor
  · intro x
    unfold Sentence.mark_mine
    rw [if_pos hc]
    simp [List.mem_filter]
  · unfold Sentence.mark_mine
    rw [if_pos hc]

theorem c6_marking_idempotent_witness :
    ((0, 0) : Cell) ∈ (Sentence.mk [(0, 0)] 1).cells ∧
    (Sentence.mark_mine (0, 0) (Sentence.mk [(0, 0)] 1)).count = 0 ∧
    ((0, 1) : Cell) ∉ (Sentence.mk [(0, 0)] 1).cells ∧
    Sentence.mark_mine (0, 1) (Sentence.mk [(0, 0)] 1) = Sentence.mk [(0, 0)] 1 := by
  refine ⟨by decide, ?_, by decide,
    (c6_marking_idempotent (Sentence.mk [(0, 0)] 1) (0, 1)).2.1 (by decide)⟩
  have h := ((c6_marking_idempotent (Sentence.mk [(0, 0)] 1) (0, 0)).1 (by decide)).2
  rw [h]
  rfl

/-- C7: on every reachable agent state, the recursive `additional_check`
procedure terminates: fuel one more than the total number of
(cell, sentence) memberships in the knowledge base suffices. -/
theorem c7_additional_check_terminates (h w : ℕ) (M : List Cell)
    (s : MinesweeperAI) (_hr : Reachable h w M s) :
    ∃ s', additional_check (muKB s + 1) s = some s' :=
  additional_check_suff (muKB s + 1) s (Nat.lt_succ_self _)

theorem c7_additional_check_terminates_witness :
    Reachable 1 1 [] (MinesweeperAI.init 1 1) ∧
    ∃ s', additional_check (muKB (MinesweeperAI.init 1 1) + 1)
      (MinesweeperAI.init 1 1) = some s' :=
  ⟨⟨[], by decide, rfl⟩,
   c7_additional_check_terminates 1 1 [] (MinesweeperAI.init 1 1)
     ⟨[], by decide, rfl⟩⟩

/-- C8: on every reachable state, `make_random_move` returns `None` when
`moves_made` and `mines` cover the whole grid (for any random draws); any
returned cell is a drawn cell outside `moves_made` and `mines`, and on
the grid whenever all draws are; and when some grid cell is in neither
set, a sequence of draws exists on which a cell is returned.  The
function is a pure read of the agent state. -/
theorem c8_random_move_contract (h w : ℕ) (M : List Cell) (s : MinesweeperAI)
    (hr : Reachable h w M s) :
    ((∀ p : Cell, InGrid h w p → p ∈ s.moves_made ∨ p ∈ s.mines) →
      ∀ draws : List Cell, make_random_move s draws = none) ∧
    (∀ (draws : List Cell) (c : Cell), make_random_move s draws = some c →
      c ∈ draws ∧ c ∉ s.moves_made ∧ c ∉ s.mines) ∧
    (∀ (draws : List Cell) (c : Cell), (∀ d ∈ draws, InGrid h w d) →
      make_random_move s draws = some c → InGrid h w c) ∧
    ((∃ p : Cell, InGrid h w p ∧ p ∉ s.moves_made ∧ p ∉ s.mines) →
      ∃ (draws : List Cell) (c : Cell), (∀ d ∈ draws, InGrid h w d) ∧
        make_random_move s draws = some c) := by
  have hinv := reachable_inv hr
  have hmem : ∀ (draws : List Cell) (c : Cell),
      make_random_move s draws = some c →
      c ∈ draws ∧ c ∉ s.moves_made ∧ c ∉ s.mines := by
    intro draws c hc
    unfold make_random_move at hc
    by_cases hguard : s.moves_made.length + s.mines.length < s.height * s.width
    · rw [if_pos hguard] at hc
      have h1 := List.find?_some hc
      rw [decide_eq_true_eq] at h1
      exact ⟨List.mem_of_find?_eq_some hc, h1.1, h1.2⟩
    · rw [if_neg hguard] at hc
      cases hc
  refine ⟨?_, hmem, ?_, ?_⟩
  · intro hcover draws
    unfold make_random_move
    rw [if_neg]
    rw [hinv.height_eq, hinv.width_eq]
    have := cover_card_ge hinv hcover
    omega
  · intro draws c hdraws hc
    exact hdraws c (hmem draws c hc).1
  · rintro ⟨p0, hg, h1, h2⟩
    refine ⟨[p0], p0, ?_, ?_⟩
    · intro d hd
      rw [List.mem_singleton] at hd
      subst hd
      exact hg
    · unfold make_random_move
      rw [if_pos]
      · apply List.find?_cons_of_pos
        rw [decide_eq_true_eq]
        exact ⟨h1, h2⟩
      · rw [hinv.height_eq, hinv.width_eq]
        exact noncover_card_lt hinv hg h1 h2

theorem c8_random_move_contract_witness :
    Reachable 1 1 [] (MinesweeperAI.init 1 1) ∧
    (∃ p : Cell, InGrid 1 1 p ∧ p ∉ (MinesweeperAI.init 1 1).moves_made ∧
      p ∉ (MinesweeperAI.init 1 1).mines) ∧
    (∃ (draws : List Cell) (c : Cell), (∀ d ∈ draws, InGrid 1 1 d) ∧
      make_random_move (MinesweeperAI.init 1 1) draws = some c) :=
  ⟨⟨[], by decide, rfl⟩, ⟨(0, 0), by decide, by decide, by decide⟩,
   (c8_random_move_contract 1 1 [] (MinesweeperAI.init 1 1)
     ⟨[], by decide, rfl⟩).2.2.2 ⟨(0, 0), by decide, by decide, by decide⟩⟩

/-- C9: `make_safe_move` returns `None` exactly when every recorded safe
cell has already been probed, and any returned cell is a recorded safe
cell not yet probed.  The function only reads the agent state (the model
is a pure function of it). -/
theorem c9_safe_move_contract (s : MinesweeperAI) :
    (make_safe_move s = none ↔ ∀ c ∈ s.safes, c ∈ s.moves_made) ∧
    (∀ c : Cell, make_safe_move s = some c →
      c ∈ s.safes ∧ c ∉ s.moves_made) := by
  constructor
  · constructor
    · intro hnone c hc
      by_contra hcm
      have hcf : c ∈ s.safes.filter (fun x => x ∉ s.moves_made) := by
        rw [List.mem_filter]
        exact ⟨hc, by simpa using hcm⟩
      have hne := List.ne_nil_of_mem hcf
      unfold make_safe_move at hnone
      rw [List.head?_eq_none_iff] at hnone
      exact hne hnone
    · intro hall
      unfold make_safe_move
      rw [List.head?_eq_none_iff, List.filter_eq_nil_iff]
      intro c hc
      rw [decide_eq_true_eq]
      intro hneg
      exact hneg (hall c hc)
  · intro c hc
    unfold make_safe_move at hc
    cases hfl : s.safes.filter (fun x => x ∉ s.moves_made) with
    | nil =>
      rw [hfl] at hc
      cases hc
    | cons x xs =>
      rw [hfl] at hc
      have hcx : x = c := by simpa using hc
      subst hcx
      have hxmem : x ∈ s.safes.filter (fun q => q ∉ s.moves_made) := by
        rw [hfl]
        exact List.mem_cons_self x xs
      rw [List.mem_filter] at hxmem
      refine ⟨hxmem.1, ?_⟩
      simpa using hxmem.2

theorem c9_safe_move_contract_witness :
    make_safe_move ⟨1, 2, [], [], [(0, 1)], []⟩ = some (0, 1) ∧
    ((0, 1) : Cell) ∈ (⟨1, 2, [], [], [(0, 1)], []⟩ : MinesweeperAI).safes ∧
    ((0, 1) : Cell) ∉ (⟨1, 2, [], [], [(0, 1)], []⟩ : MinesweeperAI).moves_made :=
  ⟨rfl, ((c9_safe_move_contract ⟨1, 2, [], [], [(0, 1)], []⟩).2 (0, 1) rfl).1,
   ((c9_safe_move_contract ⟨1, 2, [], [], [(0, 1)], []⟩).2 (0, 1) rfl).2⟩

/-- C10: on every reachable state every probed cell is recorded safe, and
a successful `add_knowledge` call never removes a cell from `moves_made`,
`mines` or `safes` (the move-choosing operations are pure reads in the
model and change no state). -/
theorem c10_monotone_state :
    (∀ (h w : ℕ) (M : List Cell) (s : MinesweeperAI), Reachable h w M s →
      ∀ c ∈ s.moves_made, c ∈ s.safes) ∧
    (∀ (f : ℕ) (s : MinesweeperAI) (cell : Cell) (k : ℕ) (s' : MinesweeperAI),
      add_knowledge f s cell k = some s' →
      (∀ c ∈ s.moves_made, c ∈ s'.moves_made) ∧
      (∀ c ∈ s.mines, c ∈ s'.mines) ∧
      (∀ c ∈ s.safes, c ∈ s'.safes)) := by
  constructor
  · intro h w M s hr c hc
    exact ((reachable_inv hr).movesGood c hc).1
  · intro f s cell k s' hrun
    obtain ⟨_, _, hmoves, hmines, hsafes⟩ := add_knowledge_extends hrun
    exact ⟨hmoves, hmines, hsafes⟩

theorem c10_monotone_state_witness :
    Reachable 1 1 [] (MinesweeperAI.init 1 1) ∧
    add_knowledge 10 (MinesweeperAI.init 1 1) (0, 0) 0 =
      some ⟨1, 1, [(0, 0)], [], [(0, 0)], []⟩ ∧
    (∀ c ∈ (MinesweeperAI.init 1 1).moves_made,
      c ∈ (MinesweeperAI.init 1 1).safes) ∧
    (∀ c ∈ (MinesweeperAI.init 1 1).mines,
      c ∈ (⟨1, 1, [(0, 0)], [], [(0, 0)], []⟩ : MinesweeperAI).mines) :=
  ⟨⟨[], by decide, rfl⟩, by rfl,
   c10_monotone_state.1 1 1 [] (MinesweeperAI.init 1 1) ⟨[], by decide, rfl⟩,
   (c10_monotone_state.2 10 (MinesweeperAI.init 1 1) (0, 0) 0
     ⟨1, 1, [(0, 0)], [], [(0, 0)], []⟩ (by rfl)).2.1⟩
